import Mathlib

/-!
Verification development for the investswarm repository.

We shallowly embed the orchestration core of the repository in Lean:
  * `src/utils/json_utils.py` : smart-quote normalization, code-fence
    stripping, brace-balance scanning and strict JSON deserialization
    (`parse_model_json`);
  * the per-agent fan-out/reduce pipelines of
    `src/agents/financial_agent.py`, `market_agent.py`,
    `sentiment_agent.py` (`analyze` and the inner `run_subtask`);
  * the top-level orchestrator `src/swarm.py` (`InvestSwarm.analyze_stock`).

Strings are embedded as `List Char`.  Python's `str.strip`, `\s` and the
`re` whitespace class are modelled by the six ASCII whitespace characters
(the inputs relevant to the claims are ASCII).  External effects (the
Dedalus responder calls, `asyncio` timeouts) are modelled as explicit
outcome parameters; `asyncio.gather` returns its results in argument
order, which is embedded as `List.map` over the ordered descriptor list.
-/

namespace InvestSwarm

/-- Abbreviation turning a Lean string literal into the `List Char`
representation used throughout this development. -/
def lc (s : String) : List Char := s.data

/-- The backtick character (written via its code point). -/
def btick : Char := Char.ofNat 96

/-- Whitespace as stripped by Python's `str.strip` / matched by `\s`
(ASCII part: space, tab, newline, carriage return, vertical tab, form
feed). -/
def isPyWs (c : Char) : Bool :=
  c = ' ' || c = '\t' || c = '\n' || c = '\r' || c = Char.ofNat 11 || c = Char.ofNat 12

/-- JSON inter-token whitespace exactly as in Python's `json` module
(space, tab, newline, carriage return). -/
def isJsonWs (c : Char) : Bool :=
  c = ' ' || c = '\t' || c = '\n' || c = '\r'

/-- ASCII lower-casing, as applied by `re.IGNORECASE` to the literal
pattern letters of `json`. -/
def lowerAscii (c : Char) : Char :=
  if 'A' ≤ c ∧ c ≤ 'Z' then Char.ofNat (c.toNat + 32) else c

/-- `SMART_QUOTES` of `src/utils/json_utils.py`, as a character map.
The Python code performs eight successive single-character
`str.replace` calls; since no value of the table is also a key, that
is the same as this pointwise map. -/
def quoteMap (c : Char) : Char :=
  if c = '“' ∨ c = '”' ∨ c = '„' ∨ c = '‟' then '"'
  else if c = '’' ∨ c = '‘' ∨ c = '‚' ∨ c = '‛' then '\''
  else c

/-- `_normalize_quotes` of `src/utils/json_utils.py`. -/
def normalize_quotes (s : List Char) : List Char := s.map quoteMap

/-- Left strip (Python `str.strip`, left half). -/
def trimL (s : List Char) : List Char := s.dropWhile isPyWs

/-- Right strip (Python `str.strip`, right half). -/
def trimR (s : List Char) : List Char := (s.reverse.dropWhile isPyWs).reverse

/-- Python `str.strip`. -/
def pstrip (s : List Char) : List Char := trimR (trimL s)

/-- `re.sub(r"^(three backticks)(?:json)?\s*", "", s, flags=IGNORECASE)`:
if `s` starts with three backticks, drop them, then drop a
case-insensitive `json` tag if literally present, then drop the
whitespace run that follows.  (The regex is anchored, so on any other
string it is the identity.) -/
def subFenceOpen (s : List Char) : List Char :=
  if s.take 3 = [btick, btick, btick] then
    List.dropWhile isPyWs
      (if ((s.drop 3).take 4).map lowerAscii = lc ("json") then (s.drop 3).drop 4
       else s.drop 3)
  else s

/-- Drop the last `n` characters. -/
def dropR (n : Nat) (s : List Char) : List Char := s.take (s.length - n)

/-- `re.sub(r"\s*(three backticks)$", "", s)`: if `s` ends with three
backticks, drop them together with the whitespace run immediately
before them; otherwise the identity. -/
def subFenceClose (s : List Char) : List Char :=
  if s.reverse.take 3 = [btick, btick, btick] then trimR (dropR 3 s) else s

/-- `_strip_code_fences` of `src/utils/json_utils.py`. -/
def strip_code_fences (s : List Char) : List Char :=
  if (pstrip s).take 3 = [btick, btick, btick] then
    pstrip (subFenceClose (subFenceOpen (pstrip s)))
  else pstrip s

/-- One step of the brace-depth scan of `_first_balanced_json_object`:
given the current character and the `(depth, in_str, esc)` state,
return the next state, or `none` when the scan terminates here (a
closing brace outside a string bringing the depth to zero). -/
def scanStep (c : Char) (depth : Int) (instr esc : Bool) :
    Option (Int × Bool × Bool) :=
  if instr then
    if esc then some (depth, true, false)
    else if c = '\\' then some (depth, true, true)
    else if c = '"' then some (depth, false, esc)
    else some (depth, true, esc)
  else
    if c = '"' then some (depth, true, esc)
    else if c = '{' then some (depth + 1, false, esc)
    else if c = '}' then
      if depth = 1 then none
      else some (depth - 1, false, esc)
    else some (depth, false, esc)

/-- The scanning loop of `_first_balanced_json_object`, returning the
consumed prefix (`s[start:i+1]` in the Python code) when the first
opening brace is balanced, and `none` when the text ends first
("Unbalanced JSON braces"). -/
def scanGo : List Char → Int → Bool → Bool → Option (List Char)
  | [], _, _, _ => none
  | c :: cs, depth, instr, esc =>
    match scanStep c depth instr esc with
    | none => some [c]
    | some (d, i, e) =>
      match scanGo cs d i e with
      | some r => some (c :: r)
      | none => none

/-- `_first_balanced_json_object` of `src/utils/json_utils.py`:
`none` both when no opening brace exists ("No '{' found in text") and
when the braces are unbalanced. -/
def first_balanced_json_object (s : List Char) : Option (List Char) :=
  scanGo (s.dropWhile (fun c => c ≠ '{')) 0 false false

/-- JSON values as produced by Python's `json.loads`.  Numbers are kept
as their source token (Python converts the token to `int`/`float`, a
function of the token, so equal tokens denote equal Python values; no
claim compares distinct tokens).  Objects are insertion-ordered
key/value lists with Python-`dict` last-wins updates. -/
inductive Json where
  | null : Json
  | bool : Bool → Json
  | num : List Char → Json
  | str : List Char → Json
  | arr : List Json → Json
  | obj : List (List Char × Json) → Json

/-- Python `dict` insertion: if the key is present, update its value in
place; otherwise append. -/
def insertKey : List (List Char × Json) → List Char → Json →
    List (List Char × Json)
  | [], k, v => [(k, v)]
  | (k', v') :: rest, k, v =>
    if k' = k then (k', v) :: rest else (k', v') :: insertKey rest k v

/-- Field lookup in a `Json.obj` (Python `dict` subscript / `get`). -/
def jlookup (j : Json) (k : List Char) : Option Json :=
  match j with
  | .obj kvs => go kvs
  | _ => none
where go : List (List Char × Json) → Option Json
  | [] => none
  | (k', v) :: rest => if k' = k then some v else go rest

/-- Value of a hexadecimal digit. -/
def hexVal (c : Char) : Option Nat :=
  if '0' ≤ c ∧ c ≤ '9' then some (c.toNat - 48)
  else if 'a' ≤ c ∧ c ≤ 'f' then some (c.toNat - 87)
  else if 'A' ≤ c ∧ c ≤ 'F' then some (c.toNat - 55)
  else none

/-- Four hexadecimal digits (the `XXXX` of a `\uXXXX` escape). -/
def hex4 (a b c d : Char) : Option Nat :=
  match hexVal a, hexVal b, hexVal c, hexVal d with
  | some x, some y, some z, some w => some (((x * 16 + y) * 16 + z) * 16 + w)
  | _, _, _, _ => none

/-- Single-character string escapes of JSON. -/
def escChar (c : Char) : Option Char :=
  if c = '"' then some '"'
  else if c = '\\' then some '\\'
  else if c = '/' then some '/'
  else if c = 'b' then some (Char.ofNat 8)
  else if c = 'f' then some (Char.ofNat 12)
  else if c = 'n' then some '\n'
  else if c = 'r' then some '\r'
  else if c = 't' then some '\t'
  else none

/-- Decode a `\uXXXX` escape (the input starts right after `\u`),
combining a following low surrogate as Python's scanner does; returns
the decoded character and the rest of the input.  Python can keep a
lone surrogate in a `str`; a Lean `Char` cannot, so a lone surrogate
decodes to the `Char.ofNat` default - no claim exercises lone
surrogates. -/
def decodeU : List Char → Option (Char × List Char)
  | a :: b :: c :: d :: cs =>
    match hex4 a b c d with
    | none => none
    | some n =>
      if 0xD800 ≤ n ∧ n < 0xDC00 then
        match cs with
        | '\\' :: 'u' :: a2 :: b2 :: c2 :: d2 :: cs2 =>
          match hex4 a2 b2 c2 d2 with
          | none => none
          | some m =>
            if 0xDC00 ≤ m ∧ m < 0xE000 then
              some (Char.ofNat (0x10000 + (n - 0xD800) * 0x400 + (m - 0xDC00)), cs2)
            else some (Char.ofNat n, '\\' :: 'u' :: a2 :: b2 :: c2 :: d2 :: cs2)
        | _ => some (Char.ofNat n, cs)
      else some (Char.ofNat n, cs)
  | _ => none

/-- Strict JSON string body scanning, as in Python's `json` C/py scanner:
the opening quote has already been consumed; returns the decoded
content and the rest after the closing quote.  Raw control characters
below `0x20` are rejected (Python `strict=True`).  The fuel argument
makes the recursion structural; every step consumes at least one
character, so `parseString` below supplies enough. -/
def parseStringBody : Nat → List Char → Option (List Char × List Char)
  | 0, _ => none
  | _, [] => none
  | Nat.succ f, c :: cs =>
    if c = '"' then some ([], cs)
    else if c = '\\' then
      match cs with
      | [] => none
      | e :: cs2 =>
        if e = 'u' then
          match decodeU cs2 with
          | some (ch, rest) =>
            match parseStringBody f rest with
            | some (w, r) => some (ch :: w, r)
            | none => none
          | none => none
        else
          match escChar e with
          | some ch =>
            match parseStringBody f cs2 with
            | some (w, r) => some (ch :: w, r)
            | none => none
          | none => none
    else if c.toNat < 0x20 then none
    else
      match parseStringBody f cs with
      | some (w, r) => some (c :: w, r)
      | none => none

/-- String scanning at its natural fuel (one unit per decoded character
is ample, since every step consumes at least one input character). -/
def parseString (s : List Char) : Option (List Char × List Char) :=
  parseStringBody (s.length + 1) s

/-- The mandatory integer part of a JSON number: `0` or a nonzero digit
followed by digits (no leading zeros), per Python's `NUMBER_RE`. -/
def parseIntPart : List Char → Option (List Char × List Char)
  | [] => none
  | c :: r =>
    if c = '0' then some ([c], r)
    else if c.isDigit then some (c :: r.takeWhile Char.isDigit, r.dropWhile Char.isDigit)
    else none

/-- The optional fraction group `(\.\d+)?`. -/
def parseFrac (s : List Char) : List Char × List Char :=
  match s with
  | '.' :: r =>
    let ds := r.takeWhile Char.isDigit
    if ds = [] then ([], s) else ('.' :: ds, r.dropWhile Char.isDigit)
  | _ => ([], s)

/-- The optional exponent group `([eE][-+]?\d+)?`. -/
def parseExp (s : List Char) : List Char × List Char :=
  match s with
  | c :: r =>
    if c = 'e' ∨ c = 'E' then
      match r with
      | sgn :: r2 =>
        if sgn = '+' ∨ sgn = '-' then
          let ds := r2.takeWhile Char.isDigit
          if ds = [] then ([], s) else (c :: sgn :: ds, r2.dropWhile Char.isDigit)
        else
          let ds := r.takeWhile Char.isDigit
          if ds = [] then ([], s) else (c :: ds, r.dropWhile Char.isDigit)
      | [] => ([], s)
    else ([], s)
  | [] => ([], s)

/-- A JSON number token (maximal match of Python's `NUMBER_RE` at the
current position), returned as the token plus the rest. -/
def parseNumber (s : List Char) : Option (List Char × List Char) :=
  let sgn : List Char × List Char :=
    match s with
    | '-' :: r => (['-'], r)
    | _ => ([], s)
  match parseIntPart sgn.2 with
  | none => none
  | some (ip, r1) =>
    let fr := parseFrac r1
    let ex := parseExp fr.2
    some (sgn.1 ++ ip ++ fr.1 ++ ex.1, ex.2)

/-- Skip JSON whitespace. -/
def skipWs (s : List Char) : List Char := s.dropWhile isJsonWs

mutual

/-- One JSON value starting at the head of the input (whitespace already
skipped), as in Python's `scan_once`: string, object, array, `null`,
`true`, `false`, number, then the constants `NaN`, `Infinity`,
`-Infinity`.  The fuel only bounds the recursion into nested
containers; `jloads` supplies more than enough. -/
def parseValue : Nat → List Char → Option (Json × List Char)
  | 0, _ => none
  | Nat.succ f, s =>
    match s with
    | [] => none
    | c :: cs =>
      if c = '"' then
        match parseString cs with
        | some (w, r) => some (.str w, r)
        | none => none
      else if c = '{' then
        match skipWs cs with
        | '}' :: r => some (.obj [], r)
        | r => parseMembers f r []
      else if c = '[' then
        match skipWs cs with
        | ']' :: r => some (.arr [], r)
        | r => parseElems f r []
      else if s.take 4 = lc ("null") then some (.null, s.drop 4)
      else if s.take 4 = lc ("true") then some (.bool true, s.drop 4)
      else if s.take 5 = lc ("false") then some (.bool false, s.drop 5)
      else
        match parseNumber s with
        | some (tok, r) => some (.num tok, r)
        | none =>
          if s.take 3 = lc ("NaN") then some (.num (lc ("NaN")), s.drop 3)
          else if s.take 8 = lc ("Infinity") then some (.num (lc ("Infinity")), s.drop 8)
          else if s.take 9 = lc ("-Infinity") then some (.num (lc ("-Infinity")), s.drop 9)
          else none

/-- Members of a JSON object after its opening brace (the empty-object
case is handled by the caller): a quoted key, a colon, a value, then
a comma and further members or the closing brace. -/
def parseMembers : Nat → List Char → List (List Char × Json) →
    Option (Json × List Char)
  | 0, _, _ => none
  | Nat.succ f, s, acc =>
    match s with
    | '"' :: r =>
      match parseString r with
      | some (k, r1) =>
        match skipWs r1 with
        | ':' :: r2 =>
          match parseValue f (skipWs r2) with
          | some (v, r3) =>
            match skipWs r3 with
            | ',' :: r4 => parseMembers f (skipWs r4) (insertKey acc k v)
            | '}' :: r4 => some (.obj (insertKey acc k v), r4)
            | _ => none
          | none => none
        | _ => none
      | none => none
    | _ => none

/-- Elements of a JSON array after its opening bracket (the empty-array
case is handled by the caller). -/
def parseElems : Nat → List Char → List Json → Option (Json × List Char)
  | 0, _, _ => none
  | Nat.succ f, s, acc =>
    match parseValue f s with
    | some (v, r1) =>
      match skipWs r1 with
      | ',' :: r2 => parseElems f (skipWs r2) (acc ++ [v])
      | ']' :: r2 => some (.arr (acc ++ [v]), r2)
      | _ => none
    | none => none

end

/-- Python `json.loads`: parse one value, allow surrounding whitespace,
and reject any extra data. -/
def jloads (s : List Char) : Option Json :=
  match parseValue (3 * s.length + 10) (skipWs s) with
  | some (v, r) => if skipWs r = [] then some v else none
  | none => none

/-- The diagnostic carried by the `ValueError` that `parse_model_json`
raises: the fixed message plus at most 5000 characters of the
normalized text. -/
def parseErrMsg (s : List Char) : List Char :=
  lc ("Failed to parse model JSON. Raw:\n") ++ s.take 5000

/-- `parse_model_json` of `src/utils/json_utils.py`.  The optional
`json_repair.repair_json` fallback is an external, optional library
(absent unless separately installed); it is taken as a parameter:
`none` models both "not installed" and "repair raised". -/
def parse_model_json (repair : List Char → Option (List Char))
    (text : List Char) : Except (List Char) Json :=
  let s := normalize_quotes (strip_code_fences text)
  let attempt : Option Json :=
    match first_balanced_json_object s with
    | some chunk => jloads chunk
    | none => none
  match attempt with
  | some v => .ok v
  | none =>
    match repair s with
    | some rep =>
      match jloads rep with
      | some v => .ok v
      | none => .error (parseErrMsg s)
    | none => .error (parseErrMsg s)

/-- The repair fallback as shipped: `json-repair` is not a dependency of
the repository, so the import fails and the fallback never succeeds. -/
def noRepair : List Char → Option (List Char) := fun _ => none

/-- `parse_model_json` as invoked by the agents of this repository
(no `json-repair` installed). -/
def extract (text : List Char) : Except (List Char) Json :=
  parse_model_json noRepair text

/-! ### The fan-out/reduce pipelines (`src/agents/*.py`)

Each agent's `analyze` builds a fixed ordered list of `Subtask`
descriptors, runs `run_subtask` over all of them concurrently with
`asyncio.gather` (which returns the results in argument order: embedded
as `List.map` over the descriptor list), then makes exactly one reduce
call and parses its output.  The external responder (`runner.run`
bounded by `asyncio.wait_for`) is modelled by an outcome function: a
call either returns raw text or raises (timeout, cancellation, or any
other exception, carried as its `str(e)` description). -/

/-- A subtask descriptor (the inner `Subtask` dataclass of each agent). -/
structure Subtask where
  name : List Char
  instruction : List Char
  timeout_s : Nat := 200

/-- Outcome of one bounded external call: raw text, or an exception
(timeout / cancellation / responder error) with its description. -/
inductive CallOutcome where
  | ok : List Char → CallOutcome
  | raise : List Char → CallOutcome

/-- The failure placeholder synthesized by `run_subtask` in
`src/agents/financial_agent.py` (lines 74-75): only `summary` and
`confidence`. -/
def financialPlaceholder (name e : List Char) : Json :=
  Json.obj [(lc ("summary"), Json.str (name ++ lc (" failed: ") ++ e)),
            (lc ("confidence"), Json.num (lc ("0")))]

/-- The failure placeholder synthesized by `run_subtask` in
`src/agents/market_agent.py` (lines 65-72) and
`src/agents/sentiment_agent.py` (lines 66-73): all record fields,
empty/neutral, confidence 0. -/
def fullPlaceholder (name e : List Char) : Json :=
  Json.obj [(lc ("summary"), Json.str (name ++ lc (" failed: ") ++ e)),
            (lc ("metrics"), Json.arr []),
            (lc ("strengths"), Json.arr []),
            (lc ("weaknesses"), Json.arr []),
            (lc ("stance"), Json.str (lc ("NEUTRAL"))),
            (lc ("confidence"), Json.num (lc ("0")))]

/-- The inner `run_subtask` of each agent's `analyze`, parameterized by
the placeholder maker `mkPh` of that agent: if the bounded call raises
(timeout, cancellation, error) or its text fails `parse_model_json`,
return the placeholder embedding the subtask name and the failure
description; on success return the parsed record unchanged. -/
def run_subtask (repair : List Char → Option (List Char))
    (mkPh : List Char → List Char → Json)
    (outcome : Subtask → CallOutcome) (st : Subtask) : Json :=
  match outcome st with
  | .ok text =>
    match parse_model_json repair text with
    | .ok v => v
    | .error e => mkPh st.name e
  | .raise e => mkPh st.name e

/-- The dictionary an agent's `analyze` returns. -/
structure AgentResult where
  agent : List Char
  agent_name : List Char
  analysis : Json
  status : List Char

/-- The `ErrorEnvelope` built on reduction failure:
`{"error": str(e), "partials": micro_results}`. -/
def errorEnvelope (e : List Char) (micro : List Json) : Json :=
  Json.obj [(lc ("error"), Json.str e), (lc ("partials"), Json.arr micro)]

/-- One pipeline execution, instrumented: the ordered map-phase records
and the argument lists of the reduce invocations (the Python code
makes exactly one reduce call, so this trace is a singleton). -/
structure PipelineRun where
  micro_results : List Json
  reduceCalls : List (List Json)
  output : AgentResult

/-- The body of an agent's `analyze` (`financial_agent.py` lines 60-113
and its near-duplicates in `market_agent.py`, `sentiment_agent.py`):
map phase over the ordered descriptors, then one reduce call whose
raising or unparsable output yields an `ErrorEnvelope` and status
`"partial"` instead of an exception. -/
def pipeline_analyze (repair : List Char → Option (List Char))
    (mkPh : List Char → List Char → Json) (agentTag agentName : List Char)
    (subtasks : List Subtask) (outcome : Subtask → CallOutcome)
    (reduceCall : List Json → CallOutcome) : PipelineRun :=
  let micro := subtasks.map (run_subtask repair mkPh outcome)
  let fin : Json × List Char :=
    match reduceCall micro with
    | .ok text =>
      match parse_model_json repair text with
      | .ok v => (v, lc ("success"))
      | .error e => (errorEnvelope e micro, lc ("partial"))
    | .raise e => (errorEnvelope e micro, lc ("partial"))
  { micro_results := micro
    reduceCalls := [micro]
    output := { agent := agentTag, agent_name := agentName,
                analysis := fin.1, status := fin.2 } }

/-- `FinancialAgent.analyze` (reduced placeholder; agent tag
`"financial"`).  The source hard-codes its five descriptors; the
descriptor list is a parameter here so that the claims quantifying
over N descriptors can be stated. -/
def financial_analyze (repair : List Char → Option (List Char))
    (subtasks : List Subtask) (outcome : Subtask → CallOutcome)
    (reduceCall : List Json → CallOutcome) : PipelineRun :=
  pipeline_analyze repair financialPlaceholder (lc ("financial"))
    (lc ("Financial Analysis Agent")) subtasks outcome reduceCall

/-- `MarketAgent.analyze` (full placeholder; agent tag `"market"`). -/
def market_analyze (repair : List Char → Option (List Char))
    (subtasks : List Subtask) (outcome : Subtask → CallOutcome)
    (reduceCall : List Json → CallOutcome) : PipelineRun :=
  pipeline_analyze repair fullPlaceholder (lc ("market"))
    (lc ("Market & Product Analysis Agent")) subtasks outcome reduceCall

/-- `SentimentAgent.analyze` (full placeholder; agent tag
`"sentiment"`). -/
def sentiment_analyze (repair : List Char → Option (List Char))
    (subtasks : List Subtask) (outcome : Subtask → CallOutcome)
    (reduceCall : List Json → CallOutcome) : PipelineRun :=
  pipeline_analyze repair fullPlaceholder (lc ("sentiment"))
    (lc ("Sentiment Analysis Agent")) subtasks outcome reduceCall

/-! ### The orchestrator (`src/swarm.py`)

`InvestSwarm.analyze_stock` gathers the three dimension pipelines with
`return_exceptions=True`, substitutes an error record for any pipeline
that raised (the others are unaffected - they completed independently),
runs the judge over the three records, and returns a dictionary whose
`status` is the literal `"success"`.  Wall-clock fields (`timestamp`,
`duration_seconds`) and logging are outside the model. -/

/-- Outcome of one dimension pipeline inside `asyncio.gather(...,
return_exceptions=True)`: its `AgentResult`, or the exception it
raised. -/
inductive PipeOutcome where
  | ok : AgentResult → PipeOutcome
  | exn : List Char → PipeOutcome

/-- Python `"financial".title()` on the single lowercase agent tags:
capitalize the first letter. -/
def titleWord (s : List Char) : List Char :=
  match s with
  | [] => []
  | c :: r => c.toUpper :: r

/-- The substitution loop of `analyze_stock` (lines 50-62): a raised
exception becomes an error record for that dimension only. -/
def resolvePipe (tag : List Char) (r : PipeOutcome) : AgentResult :=
  match r with
  | .ok a => a
  | .exn e =>
    { agent := tag
      agent_name := titleWord tag ++ lc (" Agent")
      analysis := Json.str (lc ("Error: ") ++ e)
      status := lc ("error") }

/-- Outcome of the judge phase as seen by `analyze_stock`:
`JudgeAgent.judge`'s result dictionary, or the exception it raised. -/
inductive JudgeOutcome where
  | ok : Json → JudgeOutcome
  | exn : List Char → JudgeOutcome

/-- The top-level result dictionary (`status`, the three dimension
records, the verdict). -/
structure RunResult where
  status : List Char
  financial : AgentResult
  market : AgentResult
  sentiment : AgentResult
  verdict : Json

/-- `InvestSwarm.analyze_stock` (lines 41-108): the three pipeline
outcomes and the judge outcome are parameters (they are independent
external computations); the returned dictionary always carries
`status = "success"` - the `status = "error"` path is reserved for a
failure of `asyncio.gather` itself, which cannot occur with
`return_exceptions=True`. -/
def analyze_stock (finR mktR sentR : PipeOutcome)
    (judgeCall : List AgentResult → JudgeOutcome) : RunResult :=
  let f := resolvePipe (lc ("financial")) finR
  let m := resolvePipe (lc ("market")) mktR
  let s := resolvePipe (lc ("sentiment")) sentR
  let verdict : Json :=
    match judgeCall [f, m, s] with
    | .ok j => j
    | .exn e =>
      Json.obj [(lc ("agent"), Json.str (lc ("judge"))),
                (lc ("verdict"), Json.str (lc ("Error: ") ++ e)),
                (lc ("status"), Json.str (lc ("error")))]
  { status := lc ("success"), financial := f, market := m, sentiment := s,
    verdict := verdict }

/-- The claim C5 scenario text, around an arbitrary string-literal body
`w`: `{"summary": "<w>", "confidence": 3}`. -/
def c5input (w : List Char) : List Char :=
  lc ("\x7b\"summary\": \"") ++ w ++ lc ("\", \"confidence\": 3\x7d")

/-- The record that scenario parses to. -/
def c5obj (w : List Char) : Json :=
  Json.obj [(lc ("summary"), Json.str w), (lc ("confidence"), Json.num (lc ("3")))]

/-- A character of a raw text "uses a smart-quote variant in place of an
ASCII quote": it is unchanged, or an ASCII double/single quote replaced
by one of the supported smart variants of `SMART_QUOTES`. -/
def smartRel (c c' : Char) : Prop :=
  c' = c ∨
  (c = '"' ∧ (c' = '“' ∨ c' = '”' ∨ c' = '„' ∨ c' = '‟')) ∨
  (c = '\'' ∧ (c' = '’' ∨ c' = '‘' ∨ c' = '‚' ∨ c' = '‛'))

instance (c c' : Char) : Decidable (smartRel c c') := by
  unfold smartRel
  infer_instance

/-- A raw text consisting of the content `j` wrapped in an optional
opening fence (`n ≥ 3` backticks plus a language tag and a newline) and
an optional closing fence (a newline plus `m ≥ 3` backticks). -/
def fenceWrap (bo bc : Bool) (n : Nat) (tag : List Char) (m : Nat)
    (j : List Char) : List Char :=
  (if bo then List.replicate n btick ++ tag ++ ['\n'] else []) ++ j ++
  (if bc then '\n' :: List.replicate m btick else [])

/-! ### General lemmas about the embedded operations -/

theorem strip_mem_of_mem {c : Char} {s : List Char}
    (h : c ∈ strip_code_fences s) : c ∈ s := by
  have hsub : ∀ (x : List Char), ∀ a : Char, a ∈ trimL x → a ∈ x := by
    intro x a ha
    exact (List.dropWhile_sublist _).mem ha
  have hsubR : ∀ (x : List Char), ∀ a : Char, a ∈ trimR x → a ∈ x := by
    intro x a ha
    unfold trimR at ha
    rw [List.mem_reverse] at ha
    exact List.mem_reverse.mp ((List.dropWhile_sublist _).mem ha)
  have hstrip : ∀ (x : List Char), ∀ a : Char, a ∈ pstrip x → a ∈ x := by
    intro x a ha
    exact hsub x a (hsubR (trimL x) a ha)
  have hopen : ∀ (x : List Char), ∀ a : Char, a ∈ subFenceOpen x → a ∈ x := by
    intro x a ha
    unfold subFenceOpen at ha
    split at ha
    · have h1 := (List.dropWhile_sublist _).mem ha
      split at h1
      · exact (List.drop_sublist _ _).mem ((List.drop_sublist _ _).mem h1)
      · exact (List.drop_sublist _ _).mem h1
    · exact ha
  have hclose : ∀ (x : List Char), ∀ a : Char, a ∈ subFenceClose x → a ∈ x := by
    intro x a ha
    unfold subFenceClose at ha
    split at ha
    · exact (List.take_sublist _ _).mem (hsubR _ a ha)
    · exact ha
  unfold strip_code_fences at h
  split at h
  · exact hstrip s c (hopen _ c (hclose _ c (hstrip _ c h)))
  · exact hstrip s c h

theorem quoteMap_eq_brace {c : Char} : quoteMap c = '{' ↔ c = '{' := by
  unfold quoteMap
  split_ifs with h1 h2
  · constructor
    · intro h
      exact absurd h (by decide)
    · intro h
      subst h
      rcases h1 with h | h | h | h <;> exact absurd h (by decide)
  · constructor
    · intro h
      exact absurd h (by decide)
    · intro h
      subst h
      rcases h2 with h | h | h | h <;> exact absurd h (by decide)
  · exact Iff.rfl

theorem normalize_no_brace {s : List Char} (h : '{' ∉ s) :
    '{' ∉ normalize_quotes s := by
  intro hmem
  unfold normalize_quotes at hmem
  rcases List.mem_map.mp hmem with ⟨c, hc, hq⟩
  exact h (quoteMap_eq_brace.mp hq ▸ hc)

theorem first_balanced_none_of_no_brace {s : List Char} (h : '{' ∉ s) :
    first_balanced_json_object s = none := by
  unfold first_balanced_json_object
  have : s.dropWhile (fun c => c ≠ '{') = [] := by
    rw [List.dropWhile_eq_nil_iff]
    intro x hx
    simp only [ne_eq, decide_not, Bool.not_eq_true', decide_eq_false_iff_not]
    intro hxeq
    exact h (hxeq ▸ hx)
  rw [this]
  rfl

/-! ### Claim theorems -/

/-- C9: if the first balanced brace substring of the normalized,
fence-stripped text deserializes successfully, `parse_model_json`
returns exactly that deserialized mapping - no schema-key validation
occurs anywhere in the extractor, whatever the keys are. -/
theorem c9_extract_no_schema_validation
    (repair : List Char → Option (List Char)) (s c : List Char) (v : Json)
    (h1 : first_balanced_json_object (normalize_quotes (strip_code_fences s)) = some c)
    (h2 : jloads c = some v) :
    parse_model_json repair s = .ok v := by
  unfold parse_model_json
  simp only [h1, h2]

/-- Witness for C9 at a brace-balanced input lacking every expected
schema key: `extract` succeeds and returns the mapping as-is. -/
theorem c9_extract_no_schema_validation_witness :
    extract (lc ("\x7b\"foo\": 1\x7d")) =
      .ok (Json.obj [(lc ("foo"), Json.num (lc ("1")))]) := by
  exact c9_extract_no_schema_validation noRepair (lc ("\x7b\"foo\": 1\x7d"))
    (lc ("\x7b\"foo\": 1\x7d"))
    (Json.obj [(lc ("foo"), Json.num (lc ("1")))]) (by rfl) (by rfl)

/-- C6: on input with no opening brace, `parse_model_json` (with the
optional `json-repair` fallback absent, as shipped) fails with the
`ValueError` whose diagnostic is the fixed message plus at most a
5000-character prefix of the normalized text. -/
theorem c6_no_brace_parse_error (t : List Char) (h : '{' ∉ t) :
    extract t = .error (lc ("Failed to parse model JSON. Raw:\n") ++
      (normalize_quotes (strip_code_fences t)).take 5000) ∧
    ((normalize_quotes (strip_code_fences t)).take 5000).length ≤ 5000 := by
  constructor
  · have hnb : '{' ∉ normalize_quotes (strip_code_fences t) :=
      normalize_no_brace (fun hm => h (strip_mem_of_mem hm))
    unfold extract parse_model_json
    simp only [first_balanced_none_of_no_brace hnb]
    rfl
  · simp [List.length_take_le]

/-- Witness for C6 at a concrete brace-free input. -/
theorem c6_no_brace_parse_error_witness :
    extract (lc ("no braces here at all")) =
      .error (lc ("Failed to parse model JSON. Raw:\n") ++
        (normalize_quotes (strip_code_fences (lc ("no braces here at all")))).take 5000) ∧
    ((normalize_quotes (strip_code_fences (lc ("no braces here at all")))).take 5000).length ≤ 5000 :=
  c6_no_brace_parse_error (lc ("no braces here at all")) (by decide)

/-- C1: in every pipeline execution the reduce call is invoked exactly
once, on exactly the N ordered map-phase records (one per descriptor,
none dropped or duplicated); each failed descriptor (raise or parse
failure) contributes its placeholder at its own position, and each
successful one contributes its parsed record at its own position. -/
theorem c1_pipeline_order_and_single_reduce
    (repair : List Char → Option (List Char))
    (mkPh : List Char → List Char → Json) (tag nm : List Char)
    (subtasks : List Subtask) (outcome : Subtask → CallOutcome)
    (reduceCall : List Json → CallOutcome) :
    (pipeline_analyze repair mkPh tag nm subtasks outcome reduceCall).reduceCalls =
      [(pipeline_analyze repair mkPh tag nm subtasks outcome reduceCall).micro_results] ∧
    (pipeline_analyze repair mkPh tag nm subtasks outcome reduceCall).micro_results.length =
      subtasks.length ∧
    ∀ (i : Nat) (st : Subtask), subtasks[i]? = some st →
      (∀ e, outcome st = .raise e →
        (pipeline_analyze repair mkPh tag nm subtasks outcome reduceCall).micro_results[i]? =
          some (mkPh st.name e)) ∧
      (∀ t e, outcome st = .ok t → parse_model_json repair t = .error e →
        (pipeline_analyze repair mkPh tag nm subtasks outcome reduceCall).micro_results[i]? =
          some (mkPh st.name e)) ∧
      (∀ t v, outcome st = .ok t → parse_model_json repair t = .ok v →
        (pipeline_analyze repair mkPh tag nm subtasks outcome reduceCall).micro_results[i]? =
          some v) := by
  have hmicro :
      (pipeline_analyze repair mkPh tag nm subtasks outcome reduceCall).micro_results =
        subtasks.map (run_subtask repair mkPh outcome) := rfl
  have hcalls :
      (pipeline_analyze repair mkPh tag nm subtasks outcome reduceCall).reduceCalls =
        [subtasks.map (run_subtask repair mkPh outcome)] := rfl
  refine ⟨by rw [hcalls, hmicro], by rw [hmicro]; exact List.length_map _ _, ?_⟩
  intro i st hst
  have hidx : (subtasks.map (run_subtask repair mkPh outcome))[i]? =
      some (run_subtask repair mkPh outcome st) := by
    rw [List.getElem?_map, hst]
    rfl
  refine ⟨?_, ?_, ?_⟩
  · intro e he
    rw [hmicro, hidx]
    unfold run_subtask
    simp only [he]
  · intro t e ht he
    rw [hmicro, hidx]
    unfold run_subtask
    simp only [ht, he]
  · intro t v ht hv
    rw [hmicro, hidx]
    unfold run_subtask
    simp only [ht, hv]

/-- Witness for C1: a two-descriptor pipeline in which the first times
out and the second returns valid JSON. -/
theorem c1_pipeline_order_and_single_reduce_witness :
    (pipeline_analyze noRepair fullPlaceholder (lc ("market")) (lc ("M"))
      [⟨lc ("A"), lc ("ia"), 200⟩, ⟨lc ("B"), lc ("ib"), 200⟩]
      (fun st => if st.name = lc ("A") then .raise (lc ("")) else
        .ok (lc ("\x7b\"summary\": \"ok\", \"confidence\": 7\x7d")))
      (fun _ => .raise (lc ("down")))).micro_results.length = 2 ∧
    (pipeline_analyze noRepair fullPlaceholder (lc ("market")) (lc ("M"))
      [⟨lc ("A"), lc ("ia"), 200⟩, ⟨lc ("B"), lc ("ib"), 200⟩]
      (fun st => if st.name = lc ("A") then .raise (lc ("")) else
        .ok (lc ("\x7b\"summary\": \"ok\", \"confidence\": 7\x7d")))
      (fun _ => .raise (lc ("down")))).micro_results[0]? =
      some (fullPlaceholder (lc ("A")) (lc (""))) ∧
    (pipeline_analyze noRepair fullPlaceholder (lc ("market")) (lc ("M"))
      [⟨lc ("A"), lc ("ia"), 200⟩, ⟨lc ("B"), lc ("ib"), 200⟩]
      (fun st => if st.name = lc ("A") then .raise (lc ("")) else
        .ok (lc ("\x7b\"summary\": \"ok\", \"confidence\": 7\x7d")))
      (fun _ => .raise (lc ("down")))).micro_results[1]? =
      some (Json.obj [(lc ("summary"), Json.str (lc ("ok"))),
                      (lc ("confidence"), Json.num (lc ("7")))]) := by
  refine ⟨(c1_pipeline_order_and_single_reduce noRepair fullPlaceholder
      (lc ("market")) (lc ("M")) _ _ _).2.1, ?_, ?_⟩
  · exact ((c1_pipeline_order_and_single_reduce noRepair fullPlaceholder
      (lc ("market")) (lc ("M")) _ _ _).2.2 0 ⟨lc ("A"), lc ("ia"), 200⟩
      (by rfl)).1 (lc ("")) (by rfl)
  · exact (((c1_pipeline_order_and_single_reduce noRepair fullPlaceholder
      (lc ("market")) (lc ("M")) _ _ _).2.2 1 ⟨lc ("B"), lc ("ib"), 200⟩
      (by rfl)).2.2 (lc ("\x7b\"summary\": \"ok\", \"confidence\": 7\x7d"))
      (Json.obj [(lc ("summary"), Json.str (lc ("ok"))),
                 (lc ("confidence"), Json.num (lc ("7")))]) (by rfl) (by rfl))

/-- C4: when the reduce call raises, or its output fails to parse, the
pipeline returns (it cannot raise - it is a total function of the
outcomes) an `ErrorEnvelope` of the exact shape
`{error: description, partials: the N ordered map-phase records}`. -/
theorem c4_reduce_failure_envelope
    (repair : List Char → Option (List Char))
    (mkPh : List Char → List Char → Json) (tag nm : List Char)
    (subtasks : List Subtask) (outcome : Subtask → CallOutcome)
    (reduceCall : List Json → CallOutcome) :
    (∀ e, reduceCall (pipeline_analyze repair mkPh tag nm subtasks outcome
        reduceCall).micro_results = .raise e →
      (pipeline_analyze repair mkPh tag nm subtasks outcome reduceCall).output.analysis =
        errorEnvelope e (pipeline_analyze repair mkPh tag nm subtasks outcome
          reduceCall).micro_results) ∧
    (∀ t e, reduceCall (pipeline_analyze repair mkPh tag nm subtasks outcome
        reduceCall).micro_results = .ok t → parse_model_json repair t = .error e →
      (pipeline_analyze repair mkPh tag nm subtasks outcome reduceCall).output.analysis =
        errorEnvelope e (pipeline_analyze repair mkPh tag nm subtasks outcome
          reduceCall).micro_results) := by
  have hmicro :
      (pipeline_analyze repair mkPh tag nm subtasks outcome reduceCall).micro_results =
        subtasks.map (run_subtask repair mkPh outcome) := rfl
  rw [hmicro]
  constructor
  · intro e he
    simp only [pipeline_analyze, he]
  · intro t e ht he
    simp only [pipeline_analyze, ht, he]

/-- Witness for C4: a raising reduce call over an all-failed map phase;
the envelope wraps both placeholders in order. -/
theorem c4_reduce_failure_envelope_witness :
    (pipeline_analyze noRepair fullPlaceholder (lc ("sentiment")) (lc ("S"))
      [⟨lc ("A"), lc ("ia"), 200⟩, ⟨lc ("B"), lc ("ib"), 200⟩]
      (fun _ => .raise (lc ("timeout"))) (fun _ => .raise (lc ("down")))).output.analysis =
      errorEnvelope (lc ("down"))
        [fullPlaceholder (lc ("A")) (lc ("timeout")),
         fullPlaceholder (lc ("B")) (lc ("timeout"))] := by
  have h := (c4_reduce_failure_envelope noRepair fullPlaceholder
    (lc ("sentiment")) (lc ("S"))
    [⟨lc ("A"), lc ("ia"), 200⟩, ⟨lc ("B"), lc ("ib"), 200⟩]
    (fun _ => .raise (lc ("timeout"))) (fun _ => .raise (lc ("down")))).1
    (lc ("down")) (by rfl)
  rw [h]
  rfl

/-- C10: the pipeline's status is `"success"` iff the reduce call
returned text that parses, and `"partial"` otherwise; the status never
depends on how many map-phase records are placeholders. -/
theorem c10_status_iff_reduce_parse
    (repair : List Char → Option (List Char))
    (mkPh : List Char → List Char → Json) (tag nm : List Char)
    (subtasks : List Subtask) (outcome : Subtask → CallOutcome)
    (reduceCall : List Json → CallOutcome) :
    ((pipeline_analyze repair mkPh tag nm subtasks outcome reduceCall).output.status =
        lc ("success") ↔
      ∃ t v, reduceCall (pipeline_analyze repair mkPh tag nm subtasks outcome
          reduceCall).micro_results = .ok t ∧ parse_model_json repair t = .ok v) ∧
    ((pipeline_analyze repair mkPh tag nm subtasks outcome reduceCall).output.status =
        lc ("partial") ↔
      ¬ ∃ t v, reduceCall (pipeline_analyze repair mkPh tag nm subtasks outcome
          reduceCall).micro_results = .ok t ∧ parse_model_json repair t = .ok v) := by
  have hmicro :
      (pipeline_analyze repair mkPh tag nm subtasks outcome reduceCall).micro_results =
        subtasks.map (run_subtask repair mkPh outcome) := rfl
  rw [hmicro]
  rcases hr : reduceCall (subtasks.map (run_subtask repair mkPh outcome)) with t | e
  · rcases hp : parse_model_json repair t with e | v
    · have hst : (pipeline_analyze repair mkPh tag nm subtasks outcome
          reduceCall).output.status = lc ("partial") := by
        simp only [pipeline_analyze, hr, hp]
      rw [hst]
      constructor
      · constructor
        · intro h
          exact absurd h (by decide)
        · rintro ⟨t2, v2, ht2, hv2⟩
          injection ht2 with ht2e
          subst ht2e
          rw [hp] at hv2
          cases hv2
      · constructor
        · intro h1 h2
          rcases h2 with ⟨t2, v2, ht2, hv2⟩
          injection ht2 with ht2e
          subst ht2e
          rw [hp] at hv2
          cases hv2
        · intro
          rfl
    · have hst : (pipeline_analyze repair mkPh tag nm subtasks outcome
          reduceCall).output.status = lc ("success") := by
        simp only [pipeline_analyze, hr, hp]
      rw [hst]
      constructor
      · exact ⟨fun _ => ⟨t, v, rfl, hp⟩, fun _ => rfl⟩
      · constructor
        · intro h
          exact absurd h (by decide)
        · intro h
          exact absurd ⟨t, v, rfl, hp⟩ h
  · have hst : (pipeline_analyze repair mkPh tag nm subtasks outcome
        reduceCall).output.status = lc ("partial") := by
      simp only [pipeline_analyze, hr]
    rw [hst]
    constructor
    · constructor
      · intro h
        exact absurd h (by decide)
      · rintro ⟨t2, v2, ht2, hv2⟩
        cases ht2
    · constructor
      · intro h1 h2
        rcases h2 with ⟨t2, v2, ht2, hv2⟩
        cases ht2
      · intro
        rfl

/-- Witness for C10: a run in which both subtasks fail still has status
`"success"` because the reducer's output parses. -/
theorem c10_status_iff_reduce_parse_witness :
    (pipeline_analyze noRepair fullPlaceholder (lc ("market")) (lc ("M"))
      [⟨lc ("A"), lc ("ia"), 200⟩, ⟨lc ("B"), lc ("ib"), 200⟩]
      (fun _ => .raise (lc ("timeout")))
      (fun _ => .ok (lc ("\x7b\"overall_summary\": \"x\"\x7d")))).output.status =
      lc ("success") :=
  ((c10_status_iff_reduce_parse noRepair fullPlaceholder (lc ("market")) (lc ("M"))
    [⟨lc ("A"), lc ("ia"), 200⟩, ⟨lc ("B"), lc ("ib"), 200⟩]
    (fun _ => .raise (lc ("timeout")))
    (fun _ => .ok (lc ("\x7b\"overall_summary\": \"x\"\x7d")))).1).mpr
    ⟨lc ("\x7b\"overall_summary\": \"x\"\x7d"),
     Json.obj [(lc ("overall_summary"), Json.str (lc ("x")))], rfl, by rfl⟩

/-- C2: if exactly one of the three dimension pipelines raises, the
orchestrator substitutes an error record for that dimension only, the
other two consolidated records appear unchanged (the pipelines are
independent and are not aborted), and the returned `RunResult` still
has status `"success"` - for whichever of the three dimensions
raised. -/
theorem c2_single_pipeline_exception
    (a b : AgentResult) (e : List Char)
    (judgeCall : List AgentResult → JudgeOutcome) :
    ((analyze_stock (.exn e) (.ok a) (.ok b) judgeCall).status = lc ("success") ∧
     (analyze_stock (.exn e) (.ok a) (.ok b) judgeCall).financial =
       { agent := lc ("financial"), agent_name := lc ("Financial Agent"),
         analysis := Json.str (lc ("Error: ") ++ e), status := lc ("error") } ∧
     (analyze_stock (.exn e) (.ok a) (.ok b) judgeCall).market = a ∧
     (analyze_stock (.exn e) (.ok a) (.ok b) judgeCall).sentiment = b) ∧
    ((analyze_stock (.ok a) (.exn e) (.ok b) judgeCall).status = lc ("success") ∧
     (analyze_stock (.ok a) (.exn e) (.ok b) judgeCall).market =
       { agent := lc ("market"), agent_name := lc ("Market Agent"),
         analysis := Json.str (lc ("Error: ") ++ e), status := lc ("error") } ∧
     (analyze_stock (.ok a) (.exn e) (.ok b) judgeCall).financial = a ∧
     (analyze_stock (.ok a) (.exn e) (.ok b) judgeCall).sentiment = b) ∧
    ((analyze_stock (.ok a) (.ok b) (.exn e) judgeCall).status = lc ("success") ∧
     (analyze_stock (.ok a) (.ok b) (.exn e) judgeCall).sentiment =
       { agent := lc ("sentiment"), agent_name := lc ("Sentiment Agent"),
         analysis := Json.str (lc ("Error: ") ++ e), status := lc ("error") } ∧
     (analyze_stock (.ok a) (.ok b) (.exn e) judgeCall).financial = a ∧
     (analyze_stock (.ok a) (.ok b) (.exn e) judgeCall).market = b) := by
  refine ⟨⟨rfl, ?_, rfl, rfl⟩, ⟨rfl, ?_, rfl, rfl⟩, ⟨rfl, ?_, rfl, rfl⟩⟩ <;> rfl

/-- The financial runner's failure record at a concrete raising call:
it carries only `summary` and `confidence`; the fields `metrics`,
`strengths`, `weaknesses`, `stance` are absent (so in particular they
are not present-and-empty, refuting C3 as stated for the financial
agent's runner). -/
theorem c3_counterexample :
    jlookup (run_subtask noRepair financialPlaceholder
      (fun _ => .raise (lc ("boom"))) ⟨lc ("financial_health"), lc ("i"), 200⟩)
      (lc ("metrics")) = none ∧
    jlookup (run_subtask noRepair financialPlaceholder
      (fun _ => .raise (lc ("boom"))) ⟨lc ("financial_health"), lc ("i"), 200⟩)
      (lc ("stance")) = none ∧
    jlookup (run_subtask noRepair financialPlaceholder
      (fun _ => .raise (lc ("boom"))) ⟨lc ("financial_health"), lc ("i"), 200⟩)
      (lc ("summary")) =
      some (Json.str (lc ("financial_health failed: boom"))) ∧
    jlookup (run_subtask noRepair financialPlaceholder
      (fun _ => .raise (lc ("boom"))) ⟨lc ("financial_health"), lc ("i"), 200⟩)
      (lc ("confidence")) = some (Json.num (lc ("0"))) := by
  refine ⟨rfl, rfl, by rfl, by rfl⟩

/-- C3 amended: the runner never raises; on a raising call or a parse
failure the market/sentiment runners return the full placeholder
(summary embedding the descriptor name and failure description,
confidence 0, metrics/strengths/weaknesses empty, stance NEUTRAL),
while the financial runner's placeholder carries only that summary and
confidence 0 (the other fields are omitted); on success every runner
returns the extractor's parsed record unchanged. -/
theorem c3_amended_runner_failure_contract
    (repair : List Char → Option (List Char))
    (outcome : Subtask → CallOutcome) (st : Subtask) :
    (∀ e, outcome st = .raise e →
      run_subtask repair fullPlaceholder outcome st = fullPlaceholder st.name e ∧
      run_subtask repair financialPlaceholder outcome st =
        financialPlaceholder st.name e) ∧
    (∀ t e, outcome st = .ok t → parse_model_json repair t = .error e →
      run_subtask repair fullPlaceholder outcome st = fullPlaceholder st.name e ∧
      run_subtask repair financialPlaceholder outcome st =
        financialPlaceholder st.name e) ∧
    (∀ t v, outcome st = .ok t → parse_model_json repair t = .ok v →
      run_subtask repair fullPlaceholder outcome st = v ∧
      run_subtask repair financialPlaceholder outcome st = v) ∧
    (∀ e, jlookup (fullPlaceholder st.name e) (lc ("metrics")) = some (Json.arr []) ∧
      jlookup (fullPlaceholder st.name e) (lc ("strengths")) = some (Json.arr []) ∧
      jlookup (fullPlaceholder st.name e) (lc ("weaknesses")) = some (Json.arr []) ∧
      jlookup (fullPlaceholder st.name e) (lc ("stance")) =
        some (Json.str (lc ("NEUTRAL"))) ∧
      jlookup (fullPlaceholder st.name e) (lc ("confidence")) =
        some (Json.num (lc ("0")))) := by
  refine ⟨?_, ?_, ?_, ?_⟩
  · intro e he
    unfold run_subtask
    simp [he]
  · intro t e ht he
    unfold run_subtask
    simp [ht, he]
  · intro t v ht hv
    unfold run_subtask
    simp [ht, hv]
  · intro e
    refine ⟨by rfl, by rfl, by rfl, by rfl, by rfl⟩

/-- Witness for the amended C3 at a concrete raising call. -/
theorem c3_amended_runner_failure_contract_witness :
    run_subtask noRepair fullPlaceholder (fun _ => .raise (lc ("boom")))
      ⟨lc ("news_30d"), lc ("i"), 200⟩ =
      fullPlaceholder (lc ("news_30d")) (lc ("boom")) :=
  ((c3_amended_runner_failure_contract noRepair (fun _ => .raise (lc ("boom")))
    ⟨lc ("news_30d"), lc ("i"), 200⟩).1 (lc ("boom")) rfl).1

/-! ### Lemmas for C5: the brace scan inside string literals -/

theorem scanGo_instr_skip (w : List Char) (rest : List Char) (d : Int)
    (hw : ∀ c ∈ w, c ≠ '"' ∧ c ≠ '\\') :
    scanGo (w ++ rest) d true false =
      match scanGo rest d true false with
      | some r => some (w ++ r)
      | none => none := by
  induction w with
  | nil =>
    simp only [List.nil_append]
    rcases scanGo rest d true false with _ | r <;> rfl
  | cons c w' ih =>
    have hc := hw c (by simp)
    have hw' : ∀ c ∈ w', c ≠ '"' ∧ c ≠ '\\' := fun x hx => hw x (by simp [hx])
    have hstep : scanStep c d true false = some (d, true, false) := by
      simp [scanStep, hc.1, hc.2]
    simp only [List.cons_append, scanGo, hstep, List.append_eq, ih hw']
    rcases scanGo rest d true false with _ | r <;> rfl

theorem scan_cons {c : Char} {d : Int} {i e : Bool} {d' : Int} {i' e' : Bool}
    {rest r : List Char}
    (hstep : scanStep c d i e = some (d', i', e'))
    (hrest : scanGo rest d' i' e' = some r) :
    scanGo (c :: rest) d i e = some (c :: r) := by
  simp only [scanGo, hstep, hrest]

theorem scan_strseg (w : List Char) (rest : List Char) (d : Int)
    (hw : ∀ c ∈ w, c ≠ '"' ∧ c ≠ '\\') {r : List Char}
    (hrest : scanGo rest d false false = some r) :
    scanGo ('"' :: w ++ '"' :: rest) d false false =
      some ('"' :: w ++ '"' :: r) := by
  have h1 : scanGo ('"' :: rest) d true false = some ('"' :: r) :=
    scan_cons (by simp [scanStep]) hrest
  have h2 : scanGo (w ++ '"' :: rest) d true false = some (w ++ '"' :: r) := by
    rw [scanGo_instr_skip w _ d hw, h1]
  exact scan_cons (by simp [scanStep]) h2

theorem parseStringBody_safe (w : List Char) (rest : List Char) (f : Nat)
    (hf : w.length < f)
    (hw : ∀ c ∈ w, c ≠ '"' ∧ c ≠ '\\' ∧ ¬ c.toNat < 0x20) :
    parseStringBody f (w ++ '"' :: rest) = some (w, rest) := by
  induction w generalizing f with
  | nil =>
    match f, hf with
    | Nat.succ f', _ => rfl
  | cons c w' ih =>
    match f, hf with
    | Nat.succ f', hf =>
      have hc := hw c (by simp)
      have hw' : ∀ x ∈ w', x ≠ '"' ∧ x ≠ '\\' ∧ ¬ x.toNat < 0x20 :=
        fun x hx => hw x (by simp [hx])
      have hf' : w'.length < f' := by
        simp only [List.length_cons] at hf
        omega
      simp only [List.cons_append, parseStringBody, if_neg hc.1, if_neg hc.2.1,
        if_neg hc.2.2, List.append_eq, ih f' hf' hw']

theorem parseString_safe (w : List Char) (rest : List Char)
    (hw : ∀ c ∈ w, c ≠ '"' ∧ c ≠ '\\' ∧ ¬ c.toNat < 0x20) :
    parseString (w ++ '"' :: rest) = some (w, rest) := by
  unfold parseString
  exact parseStringBody_safe w rest _ (by simp; omega) hw

theorem map_quoteMap_id {l : List Char} (h : ∀ c ∈ l, quoteMap c = c) :
    l.map quoteMap = l := by
  induction l with
  | nil => rfl
  | cons c t ih =>
    simp only [List.map_cons, h c (by simp), ih (fun x hx => h x (by simp [hx]))]

theorem skipWs_nws {c : Char} {cs : List Char} (h : isJsonWs c = false) :
    skipWs (c :: cs) = c :: cs := by
  simp [skipWs, List.dropWhile_cons, h]

theorem skipWs_sp {cs : List Char} : skipWs (' ' :: cs) = skipWs cs := by
  simp [skipWs, List.dropWhile_cons, isJsonWs]

theorem trimR_append_last {l : List Char} {c : Char} (hc : isPyWs c = false) :
    trimR (l ++ [c]) = l ++ [c] := by
  unfold trimR
  rw [List.reverse_append]
  simp [List.dropWhile_cons, hc]

/-- The structured cons form of the C5 scenario text. -/
theorem c5input_form (w : List Char) :
    c5input w = '{' :: '"' :: (lc ("summary") ++ ('"' :: ':' :: ' ' :: '"' ::
      (w ++ ('"' :: ',' :: ' ' :: '"' :: (lc ("confidence") ++
        ('"' :: ':' :: ' ' :: '3' :: '}' :: [])))))) := by
  show lc ("\x7b\"summary\": \"") ++ w ++ lc ("\", \"confidence\": 3\x7d") = _
  have h1 : lc ("\x7b\"summary\": \"") =
      '{' :: '"' :: (lc ("summary") ++ ['"', ':', ' ', '"']) := by rfl
  have h2 : lc ("\", \"confidence\": 3\x7d") =
      '"' :: ',' :: ' ' :: '"' :: (lc ("confidence") ++ ['"', ':', ' ', '3', '}']) := by rfl
  rw [h1, h2]
  simp [List.append_assoc]

theorem c5_scan (w : List Char) (hw : ∀ c ∈ w, c ≠ '"' ∧ c ≠ '\\') :
    scanGo (c5input w) 0 false false = some (c5input w) := by
  have hS : ∀ c ∈ lc ("summary"), c ≠ '"' ∧ c ≠ '\\' := by decide
  have hC : ∀ c ∈ lc ("confidence"), c ≠ '"' ∧ c ≠ '\\' := by decide
  have e1 : scanGo (':' :: ' ' :: '3' :: '}' :: []) 1 false false =
      some (':' :: ' ' :: '3' :: '}' :: []) := by decide
  have e2 := scan_strseg (lc ("confidence")) (':' :: ' ' :: '3' :: '}' :: []) 1 hC e1
  have e3 : scanGo (' ' :: '"' :: (lc ("confidence") ++
      ('"' :: ':' :: ' ' :: '3' :: '}' :: []))) 1 false false =
      some (' ' :: '"' :: (lc ("confidence") ++
        ('"' :: ':' :: ' ' :: '3' :: '}' :: []))) :=
    scan_cons (by decide) e2
  have e4 : scanGo (',' :: ' ' :: '"' :: (lc ("confidence") ++
      ('"' :: ':' :: ' ' :: '3' :: '}' :: []))) 1 false false =
      some (',' :: ' ' :: '"' :: (lc ("confidence") ++
        ('"' :: ':' :: ' ' :: '3' :: '}' :: []))) :=
    scan_cons (by decide) e3
  have e5 := scan_strseg w _ 1 hw e4
  have e6 : scanGo (' ' :: '"' :: (w ++ ('"' :: ',' :: ' ' :: '"' ::
      (lc ("confidence") ++ ('"' :: ':' :: ' ' :: '3' :: '}' :: []))))) 1 false false =
      some (' ' :: '"' :: (w ++ ('"' :: ',' :: ' ' :: '"' ::
        (lc ("confidence") ++ ('"' :: ':' :: ' ' :: '3' :: '}' :: []))))) :=
    scan_cons (by decide) e5
  have e7 : scanGo (':' :: ' ' :: '"' :: (w ++ ('"' :: ',' :: ' ' :: '"' ::
      (lc ("confidence") ++ ('"' :: ':' :: ' ' :: '3' :: '}' :: []))))) 1 false false =
      some (':' :: ' ' :: '"' :: (w ++ ('"' :: ',' :: ' ' :: '"' ::
        (lc ("confidence") ++ ('"' :: ':' :: ' ' :: '3' :: '}' :: []))))) :=
    scan_cons (by decide) e6
  have e8 := scan_strseg (lc ("summary")) _ 1 hS e7
  have e9 := scan_cons (c := '{') (d := 0) (i := false) (e := false)
    (by decide) e8
  rw [c5input_form]
  exact e9

theorem c5_first_balanced (w : List Char) (hw : ∀ c ∈ w, c ≠ '"' ∧ c ≠ '\\') :
    first_balanced_json_object (c5input w) = some (c5input w) := by
  unfold first_balanced_json_object
  have hdw : (c5input w).dropWhile (fun c => c ≠ '{') = c5input w := by
    rw [c5input_form]
    rw [List.dropWhile_cons]
    simp
  rw [hdw]
  exact c5_scan w hw

theorem c5_strip (w : List Char) :
    strip_code_fences (c5input w) = c5input w := by
  have hlast : c5input w = ('{' :: '"' :: (lc ("summary") ++ ('"' :: ':' :: ' ' :: '"' ::
      (w ++ ('"' :: ',' :: ' ' :: '"' :: (lc ("confidence") ++
        ('"' :: ':' :: ' ' :: '3' :: []))))))) ++ ['}'] := by
    rw [c5input_form]
    simp
  have hstrip : pstrip (c5input w) = c5input w := by
    unfold pstrip
    have htl : trimL (c5input w) = c5input w := by
      unfold trimL
      rw [c5input_form, List.dropWhile_cons]
      simp [isPyWs]
    rw [htl]
    rw [hlast]
    exact trimR_append_last (by decide)
  unfold strip_code_fences
  rw [hstrip]
  have htake : (c5input w).take 3 = ['{', '"', 's'] := by
    rw [c5input_form]
    have hs : lc ("summary") = 's' :: lc ("ummary") := rfl
    rw [hs]
    rfl
  rw [htake]
  simp [btick]

theorem c5_normalize (w : List Char) (hw : ∀ c ∈ w, quoteMap c = c) :
    normalize_quotes (c5input w) = c5input w := by
  unfold normalize_quotes c5input
  rw [List.map_append, List.map_append]
  rw [map_quoteMap_id hw]
  rw [show (lc ("\x7b\"summary\": \"")).map quoteMap = lc ("\x7b\"summary\": \"") by decide]
  rw [show (lc ("\", \"confidence\": 3\x7d")).map quoteMap = lc ("\", \"confidence\": 3\x7d") by decide]

theorem c5_jloads (w : List Char)
    (hw : ∀ c ∈ w, c ≠ '"' ∧ c ≠ '\\' ∧ ¬ c.toNat < 0x20) :
    jloads (c5input w) = some (c5obj w) := by
  have hS : ∀ c ∈ lc ("summary"), c ≠ '"' ∧ c ≠ '\\' ∧ ¬ c.toNat < 0x20 := by decide
  have hC : ∀ c ∈ lc ("confidence"), c ≠ '"' ∧ c ≠ '\\' ∧ ¬ c.toNat < 0x20 := by decide
  have hne : ¬ (lc ("summary") = lc ("confidence")) := by decide
  have hpv : ∀ f : Nat, parseValue (f + 4) (c5input w) = some (c5obj w, []) := by
    intro f
    rw [c5input_form]
    have hkey1 : parseString (lc ("summary") ++ '"' :: (':' :: ' ' :: '"' ::
        (w ++ ('"' :: ',' :: ' ' :: '"' :: (lc ("confidence") ++
          ('"' :: ':' :: ' ' :: '3' :: '}' :: [])))))) =
        some (lc ("summary"), ':' :: ' ' :: '"' ::
        (w ++ ('"' :: ',' :: ' ' :: '"' :: (lc ("confidence") ++
          ('"' :: ':' :: ' ' :: '3' :: '}' :: []))))) :=
      parseString_safe _ _ hS
    have hval1 : parseString (w ++ '"' :: (',' :: ' ' :: '"' ::
        (lc ("confidence") ++ ('"' :: ':' :: ' ' :: '3' :: '}' :: [])))) =
        some (w, ',' :: ' ' :: '"' :: (lc ("confidence") ++
          ('"' :: ':' :: ' ' :: '3' :: '}' :: []))) :=
      parseString_safe _ _ hw
    have hkey2 : parseString (lc ("confidence") ++ '"' ::
        (':' :: ' ' :: '3' :: '}' :: [])) =
        some (lc ("confidence"), ':' :: ' ' :: '3' :: '}' :: []) :=
      parseString_safe _ _ hC
    have hv2 : parseValue (f + 1) ('3' :: '}' :: []) =
        some (Json.num ['3'], ['}']) := by rfl
    have hstr : parseValue (f + 2) ('"' :: (w ++ ('"' :: ',' :: ' ' :: '"' ::
        (lc ("confidence") ++ ('"' :: ':' :: ' ' :: '3' :: '}' :: []))))) =
        some (Json.str w, ',' :: ' ' :: '"' :: (lc ("confidence") ++
          ('"' :: ':' :: ' ' :: '3' :: '}' :: []))) := by
      simp only [parseValue]
      rw [hval1]
      simp
    have hmem1 : parseMembers (f + 3) ('"' :: (lc ("summary") ++ ('"' :: ':' :: ' ' :: '"' ::
        (w ++ ('"' :: ',' :: ' ' :: '"' :: (lc ("confidence") ++
          ('"' :: ':' :: ' ' :: '3' :: '}' :: []))))))) [] =
        some (c5obj w, []) := by
      simp only [parseMembers]
      rw [hkey1]
      simp [skipWs, List.dropWhile_cons, isJsonWs, hstr, hkey2, hv2, insertKey, hne,
        c5obj, show lc ("3") = ['3'] from rfl]
    show parseValue (f + 4) ('{' :: ('"' :: (lc ("summary") ++ ('"' :: ':' :: ' ' :: '"' ::
        (w ++ ('"' :: ',' :: ' ' :: '"' :: (lc ("confidence") ++
          ('"' :: ':' :: ' ' :: '3' :: '}' :: [])))))))) = some (c5obj w, [])
    simp only [parseValue]
    simp [skipWs, List.dropWhile_cons, isJsonWs, hmem1]
  unfold jloads
  have hlen : 3 * (c5input w).length + 10 = (3 * (c5input w).length + 6) + 4 := by omega
  rw [hlen]
  have hsk : skipWs (c5input w) = c5input w := by
    rw [c5input_form]
    exact skipWs_nws (by decide)
  rw [hsk, hpv (3 * (c5input w).length + 6)]
  rfl

/-- C5: for every string-literal body `w` free of quotes, backslashes,
raw control characters and smart quotes - in particular one containing
brace characters - the brace-depth scan treats the braces inside the
quoted string as non-structural and returns the whole outer object,
and `parse_model_json` returns exactly that object, not a prefix
ending at an inner closing brace. -/
theorem c5_brace_inside_string (w : List Char)
    (repair : List Char → Option (List Char))
    (hw : ∀ c ∈ w, quoteMap c = c ∧ c ≠ '"' ∧ c ≠ '\\' ∧ 0x20 ≤ c.toNat) :
    first_balanced_json_object (c5input w) = some (c5input w) ∧
    parse_model_json repair (c5input w) = .ok (c5obj w) := by
  have hw1 : ∀ c ∈ w, c ≠ '"' ∧ c ≠ '\\' :=
    fun c hc => ⟨(hw c hc).2.1, (hw c hc).2.2.1⟩
  have hw2 : ∀ c ∈ w, c ≠ '"' ∧ c ≠ '\\' ∧ ¬ c.toNat < 0x20 :=
    fun c hc => ⟨(hw c hc).2.1, (hw c hc).2.2.1, by have := (hw c hc).2.2.2; omega⟩
  have hfb := c5_first_balanced w hw1
  refine ⟨hfb, ?_⟩
  unfold parse_model_json
  rw [c5_strip w, c5_normalize w (fun c hc => (hw c hc).1)]
  simp only [hfb, c5_jloads w hw2]

/-- Witness for C5: the claim's concrete raw text
`{"summary": "has a { brace } inside a string", "confidence": 3}`;
`extract` returns that exact object. -/
theorem c5_brace_inside_string_witness :
    first_balanced_json_object (c5input (lc ("has a \x7b brace \x7d inside a string"))) =
      some (c5input (lc ("has a \x7b brace \x7d inside a string"))) ∧
    parse_model_json noRepair (c5input (lc ("has a \x7b brace \x7d inside a string"))) =
      .ok (c5obj (lc ("has a \x7b brace \x7d inside a string"))) :=
  c5_brace_inside_string (lc ("has a \x7b brace \x7d inside a string")) noRepair
    (by decide)

/-! ### Lemmas for C8: smart-quote substitution -/

theorem smartRel_quoteMap {c c' : Char} (h : smartRel c c') :
    quoteMap c' = quoteMap c := by
  rcases h with h | ⟨hc, h⟩ | ⟨hc, h⟩
  · rw [h]
  · subst hc
    rcases h with h | h | h | h <;> subst h <;> decide
  · subst hc
    rcases h with h | h | h | h <;> subst h <;> decide

theorem smartRel_ws {c c' : Char} (h : smartRel c c') :
    isPyWs c' = isPyWs c := by
  rcases h with h | ⟨hc, h⟩ | ⟨hc, h⟩
  · rw [h]
  · subst hc
    rcases h with h | h | h | h <;> subst h <;> decide
  · subst hc
    rcases h with h | h | h | h <;> subst h <;> decide

theorem smartRel_btick {c c' : Char} (h : smartRel c c') :
    (c' = btick ↔ c = btick) := by
  rcases h with h | ⟨hc, h⟩ | ⟨hc, h⟩
  · rw [h]
  · subst hc
    rcases h with h | h | h | h <;> subst h <;> decide
  · subst hc
    rcases h with h | h | h | h <;> subst h <;> decide

theorem smartRel_lower_json {c c' : Char} (h : smartRel c c')
    {x : Char} (hx : x ∈ lc ("json")) :
    (lowerAscii c' = x ↔ lowerAscii c = x) := by
  have hx4 : x = 'j' ∨ x = 's' ∨ x = 'o' ∨ x = 'n' := by
    have : lc ("json") = ['j', 's', 'o', 'n'] := rfl
    rw [this] at hx
    simpa using hx
  rcases h with h | ⟨hc, h⟩ | ⟨hc, h⟩
  · rw [h]
  · subst hc
    rcases h with h | h | h | h <;> subst h <;>
      rcases hx4 with h | h | h | h <;> subst h <;> decide
  · subst hc
    rcases h with h | h | h | h <;> subst h <;>
      rcases hx4 with h | h | h | h <;> subst h <;> decide

theorem forall₂_eq_btick_pat :
    ∀ {s t : List Char}, List.Forall₂ smartRel s t →
      (t = [btick, btick, btick] ↔ s = [btick, btick, btick]) := by
  have key : ∀ (pat : List Char) {s t : List Char}, List.Forall₂ smartRel s t →
      (∀ x ∈ pat, x = btick) → (t = pat ↔ s = pat) := by
    intro pat s t h
    induction h generalizing pat with
    | nil => intro; exact Iff.rfl
    | cons hab htl ih =>
      intro hpat
      match pat with
      | [] => simp
      | x :: pat' =>
        have hx : x = btick := hpat x (by simp)
        subst hx
        simp only [List.cons.injEq]
        constructor
        · rintro ⟨h1, h2⟩
          exact ⟨(smartRel_btick hab).mp h1, (ih pat' (fun y hy => hpat y (by simp [hy]))).mp h2⟩
        · rintro ⟨h1, h2⟩
          exact ⟨(smartRel_btick hab).mpr h1, (ih pat' (fun y hy => hpat y (by simp [hy]))).mpr h2⟩
  intro s t h
  exact key [btick, btick, btick] h (by simp)

theorem forall₂_lower_eq_json :
    ∀ {s t : List Char}, List.Forall₂ smartRel s t →
      (t.map lowerAscii = lc ("json") ↔ s.map lowerAscii = lc ("json")) := by
  have key : ∀ (pat : List Char) {s t : List Char}, List.Forall₂ smartRel s t →
      (∀ x ∈ pat, x ∈ lc ("json")) →
      (t.map lowerAscii = pat ↔ s.map lowerAscii = pat) := by
    intro pat s t h
    induction h generalizing pat with
    | nil => intro; exact Iff.rfl
    | cons hab htl ih =>
      intro hpat
      match pat with
      | [] => simp
      | x :: pat' =>
        simp only [List.map_cons, List.cons.injEq]
        constructor
        · rintro ⟨h1, h2⟩
          exact ⟨(smartRel_lower_json hab (hpat x (by simp))).mp h1,
            (ih pat' (fun y hy => hpat y (by simp [hy]))).mp h2⟩
        · rintro ⟨h1, h2⟩
          exact ⟨(smartRel_lower_json hab (hpat x (by simp))).mpr h1,
            (ih pat' (fun y hy => hpat y (by simp [hy]))).mpr h2⟩
  intro s t h
  exact key (lc ("json")) h (fun x hx => hx)

theorem forall₂_dropWhile_ws {s t : List Char}
    (h : List.Forall₂ smartRel s t) :
    List.Forall₂ smartRel (s.dropWhile isPyWs) (t.dropWhile isPyWs) := by
  induction h with
  | nil => exact List.Forall₂.nil
  | @cons a b l₁ l₂ hab htl ih =>
    rw [List.dropWhile_cons, List.dropWhile_cons, smartRel_ws hab]
    by_cases hws : isPyWs a = true
    · rw [if_pos hws, if_pos hws]
      exact ih
    · rw [if_neg hws, if_neg hws]
      exact List.Forall₂.cons hab htl

theorem forall₂_trimL {s t : List Char} (h : List.Forall₂ smartRel s t) :
    List.Forall₂ smartRel (trimL s) (trimL t) :=
  forall₂_dropWhile_ws h

theorem forall₂_trimR {s t : List Char} (h : List.Forall₂ smartRel s t) :
    List.Forall₂ smartRel (trimR s) (trimR t) :=
  List.rel_reverse (forall₂_dropWhile_ws (List.rel_reverse h))

theorem forall₂_pstrip {s t : List Char} (h : List.Forall₂ smartRel s t) :
    List.Forall₂ smartRel (pstrip s) (pstrip t) :=
  forall₂_trimR (forall₂_trimL h)

theorem forall₂_subFenceOpen {s t : List Char}
    (h : List.Forall₂ smartRel s t) :
    List.Forall₂ smartRel (subFenceOpen s) (subFenceOpen t) := by
  unfold subFenceOpen
  have hcond := forall₂_eq_btick_pat (List.forall₂_take 3 h)
  by_cases h3 : s.take 3 = [btick, btick, btick]
  · rw [if_pos h3, if_pos (hcond.mpr h3)]
    have hdrop := List.forall₂_drop 3 h
    have hjson := forall₂_lower_eq_json (List.forall₂_take 4 hdrop)
    by_cases hj : (List.take 4 (s.drop 3)).map lowerAscii = lc ("json")
    · rw [if_pos hj, if_pos (hjson.mpr hj)]
      exact forall₂_dropWhile_ws (List.forall₂_drop 4 hdrop)
    · rw [if_neg hj, if_neg (fun hc => hj (hjson.mp hc))]
      exact forall₂_dropWhile_ws hdrop
  · rw [if_neg h3, if_neg (fun hc => h3 (hcond.mp hc))]
    exact h

theorem forall₂_subFenceClose {s t : List Char}
    (h : List.Forall₂ smartRel s t) :
    List.Forall₂ smartRel (subFenceClose s) (subFenceClose t) := by
  unfold subFenceClose
  have hcond := forall₂_eq_btick_pat (List.forall₂_take 3 (List.rel_reverse h))
  have hlen : s.length = t.length := h.length_eq
  by_cases h3 : s.reverse.take 3 = [btick, btick, btick]
  · rw [if_pos h3, if_pos (hcond.mpr h3)]
    unfold dropR
    rw [← hlen]
    exact forall₂_trimR (List.forall₂_take (s.length - 3) h)
  · rw [if_neg h3, if_neg (fun hc => h3 (hcond.mp hc))]
    exact h

theorem forall₂_strip {s t : List Char} (h : List.Forall₂ smartRel s t) :
    List.Forall₂ smartRel (strip_code_fences s) (strip_code_fences t) := by
  unfold strip_code_fences
  have hps := forall₂_pstrip h
  have hcond := forall₂_eq_btick_pat (List.forall₂_take 3 hps)
  by_cases h3 : (pstrip s).take 3 = [btick, btick, btick]
  · rw [if_pos h3, if_pos (hcond.mpr h3)]
    exact forall₂_pstrip (forall₂_subFenceClose (forall₂_subFenceOpen hps))
  · rw [if_neg h3, if_neg (fun hc => h3 (hcond.mp hc))]
    exact hps

theorem forall₂_normalize_eq {s t : List Char}
    (h : List.Forall₂ smartRel s t) :
    normalize_quotes t = normalize_quotes s := by
  induction h with
  | nil => rfl
  | cons hab htl ih =>
    unfold normalize_quotes at ih ⊢
    simp only [List.map_cons, smartRel_quoteMap hab, ih]

theorem quoteMap_idem (c : Char) : quoteMap (quoteMap c) = quoteMap c := by
  by_cases h1 : c = '“' ∨ c = '”' ∨ c = '„' ∨ c = '‟'
  · have h : quoteMap c = '"' := by
      unfold quoteMap
      rw [if_pos h1]
    rw [h]
    decide
  · by_cases h2 : c = '’' ∨ c = '‘' ∨ c = '‚' ∨ c = '‛'
    · have h : quoteMap c = '\'' := by
        unfold quoteMap
        rw [if_neg h1, if_pos h2]
      rw [h]
      decide
    · have h : quoteMap c = c := by
        unfold quoteMap
        rw [if_neg h1, if_neg h2]
      rw [h]
      exact h

/-- C8: smart-quote normalization is idempotent, and replacing ASCII
quotes by any mix of the supported smart-quote variants anywhere in the
raw text leaves the result of `parse_model_json` unchanged - in
particular, a structurally valid text stays extractable. -/
theorem c8_smart_quotes
    (repair : List Char → Option (List Char)) (s t : List Char)
    (h : List.Forall₂ smartRel s t) :
    (∀ u : List Char, normalize_quotes (normalize_quotes u) = normalize_quotes u) ∧
    parse_model_json repair t = parse_model_json repair s := by
  constructor
  · intro u
    unfold normalize_quotes
    rw [List.map_map]
    exact List.map_congr_left (fun c _ => quoteMap_idem c)
  · have hkey : normalize_quotes (strip_code_fences t) =
        normalize_quotes (strip_code_fences s) :=
      forall₂_normalize_eq (forall₂_strip h)
    unfold parse_model_json
    rw [hkey]

/-- Witness for C8: `{“a”: 1}` (smart quotes) parses exactly like
`{"a": 1}`, which extracts successfully. -/
theorem c8_smart_quotes_witness :
    parse_model_json noRepair (lc ("\x7b“a”: 1\x7d")) =
      parse_model_json noRepair (lc ("\x7b\"a\": 1\x7d")) ∧
    parse_model_json noRepair (lc ("\x7b\"a\": 1\x7d")) =
      .ok (Json.obj [(lc ("a"), Json.num (lc ("1")))]) :=
  ⟨(c8_smart_quotes noRepair (lc ("\x7b\"a\": 1\x7d")) (lc ("\x7b“a”: 1\x7d"))
      (by decide)).2, by rfl⟩

/-! ### Lemmas for C7: junk-invariance of the brace scan, and the
decomposition of a successful scan -/

theorem dropWhile_append_all {p : Char → Bool} {l₁ l₂ : List Char}
    (h : ∀ a ∈ l₁, p a = true) :
    List.dropWhile p (l₁ ++ l₂) = List.dropWhile p l₂ := by
  induction l₁ with
  | nil => rfl
  | cons c t ih =>
    rw [List.cons_append, List.dropWhile_cons, if_pos (h c (by simp))]
    exact ih (fun a ha => h a (by simp [ha]))

theorem dropWhile_append_pos {p : Char → Bool} {l₁ l₂ : List Char}
    (h : List.dropWhile p l₁ ≠ []) :
    List.dropWhile p (l₁ ++ l₂) = List.dropWhile p l₁ ++ l₂ := by
  induction l₁ with
  | nil => exact absurd rfl h
  | cons c t ih =>
    by_cases hc : p c = true
    · rw [List.cons_append, List.dropWhile_cons, List.dropWhile_cons,
        if_pos hc, if_pos hc]
      rw [List.dropWhile_cons, if_pos hc] at h
      exact ih h
    · rw [List.cons_append, List.dropWhile_cons, List.dropWhile_cons,
        if_neg hc, if_neg hc]
      rfl

theorem dropWhile_head_not {p : Char → Bool} {l t : List Char} {c : Char}
    (h : List.dropWhile p l = c :: t) : p c = false := by
  induction l with
  | nil => simp at h
  | cons a r ih =>
    rw [List.dropWhile_cons] at h
    by_cases ha : p a = true
    · rw [if_pos ha] at h
      exact ih h
    · rw [if_neg ha] at h
      cases h
      simpa using ha

theorem scanGo_extend {l ext r : List Char} {d : Int} {i e : Bool}
    (h : scanGo l d i e = some r) : scanGo (l ++ ext) d i e = some r := by
  induction l generalizing d i e r with
  | nil => simp [scanGo] at h
  | cons c t ih =>
    rw [List.cons_append]
    rcases hs : scanStep c d i e with _ | ⟨d', i', e'⟩ <;>
      simp only [scanGo, hs] at h ⊢
    · exact h
    · rcases ht : scanGo t d' i' e' with _ | r' <;> rw [ht] at h
      · simp at h
      · rw [ih ht]
        simpa using h

theorem scanGo_decomp {l r : List Char} {d : Int} {i e : Bool}
    (h : scanGo l d i e = some r) : ∃ rest, l = r ++ rest := by
  induction l generalizing d i e r with
  | nil => simp [scanGo] at h
  | cons c t ih =>
    rcases hs : scanStep c d i e with _ | ⟨d', i', e'⟩ <;>
      simp only [scanGo, hs] at h
    · cases h
      exact ⟨t, rfl⟩
    · rcases ht : scanGo t d' i' e' with _ | r' <;> rw [ht] at h
      · simp at h
      · rcases h with ⟨rfl⟩
        rcases ih ht with ⟨rest, hrest⟩
        exact ⟨rest, by rw [List.cons_append, ← hrest]⟩

theorem scanGo_ne_nil {l r : List Char} {d : Int} {i e : Bool}
    (h : scanGo l d i e = some r) : r ≠ [] := by
  cases l with
  | nil => simp [scanGo] at h
  | cons c t =>
    rcases hs : scanStep c d i e with _ | ⟨d', i', e'⟩ <;>
      simp only [scanGo, hs] at h
    · cases h
      simp
    · rcases ht : scanGo t d' i' e' with _ | r' <;> rw [ht] at h
      · simp at h
      · rcases h with ⟨rfl⟩
        simp

theorem scanGo_self {l r : List Char} {d : Int} {i e : Bool}
    (h : scanGo l d i e = some r) : scanGo r d i e = some r := by
  induction l generalizing d i e r with
  | nil => simp [scanGo] at h
  | cons c t ih =>
    rcases hs : scanStep c d i e with _ | ⟨d', i', e'⟩ <;>
      simp only [scanGo, hs] at h
    · cases h
      simp only [scanGo, hs]
    · rcases ht : scanGo t d' i' e' with _ | r' <;> rw [ht] at h
      · simp at h
      · rcases h with ⟨rfl⟩
        simp only [scanGo, hs, ih ht]

/-- Junk before the first brace (brace-free) and junk after the balanced
chunk never change the scan result. -/
theorem fb_of_decomp {p c t : List Char}
    (hp : '{' ∉ p) (hhead : c.head? = some '{')
    (hc : scanGo c 0 false false = some c) :
    first_balanced_json_object (p ++ (c ++ t)) = some c := by
  unfold first_balanced_json_object
  have h1 : List.dropWhile (fun x => x ≠ '{') (p ++ (c ++ t)) =
      List.dropWhile (fun x => x ≠ '{') (c ++ t) :=
    dropWhile_append_all (by
      intro a ha
      have : a ≠ '{' := fun hEq => hp (hEq ▸ ha)
      simpa using this)
  rw [h1]
  obtain ⟨c', rfl⟩ : ∃ c', c = '{' :: c' := by
    cases c with
    | nil => simp at hhead
    | cons x tl =>
      simp only [List.head?_cons, Option.some.injEq] at hhead
      exact ⟨tl, by rw [hhead]⟩
  rw [List.cons_append, List.dropWhile_cons]
  rw [if_neg (by simp)]
  exact scanGo_extend hc

/-- A successful scan decomposes its input as brace-free junk, the
chunk (self-balanced, starting with the brace), and a tail. -/
theorem fb_inv {s c : List Char}
    (h : first_balanced_json_object s = some c) :
    ∃ p t, s = p ++ c ++ t ∧ '{' ∉ p ∧ c.head? = some '{' ∧
      scanGo c 0 false false = some c := by
  unfold first_balanced_json_object at h
  have hsplit := List.takeWhile_append_dropWhile
    (p := fun x => x ≠ '{') (l := s)
  rcases scanGo_decomp h with ⟨rest, hrest⟩
  refine ⟨s.takeWhile (fun x => x ≠ '{'), rest, ?_, ?_, ?_, scanGo_self h⟩
  · rw [List.append_assoc, ← hrest, hsplit]
  · intro hmem
    have := List.mem_takeWhile_imp hmem
    simp at this
  · have hne := scanGo_ne_nil h
    match c, hne with
    | c0 :: c', _ =>
      have hd : List.dropWhile (fun x => x ≠ '{') s = c0 :: (c' ++ rest) := by
        rw [hrest, List.cons_append]
      have := dropWhile_head_not hd
      simp only [ne_eq, decide_not, Bool.not_eq_false', decide_eq_true_eq] at this
      simp [this]

theorem trimL_decomp (l : List Char) :
    l = l.takeWhile isPyWs ++ trimL l ∧ ∀ a ∈ l.takeWhile isPyWs, isPyWs a = true :=
  ⟨(List.takeWhile_append_dropWhile isPyWs l).symm,
   fun _ ha => List.mem_takeWhile_imp ha⟩

theorem trimR_decomp (l : List Char) :
    ∃ u, l = trimR l ++ u ∧ ∀ a ∈ u, isPyWs a = true := by
  refine ⟨(l.reverse.takeWhile isPyWs).reverse, ?_, ?_⟩
  · unfold trimR
    rw [← List.reverse_append, List.takeWhile_append_dropWhile, List.reverse_reverse]
  · intro a ha
    rw [List.mem_reverse] at ha
    exact List.mem_takeWhile_imp ha

theorem dropWhile_fix_head {p : Char → Bool} {c : Char} {t : List Char}
    (h : List.dropWhile p (c :: t) = c :: t) : p c = false := by
  by_cases hc : p c = true
  · rw [List.dropWhile_cons, if_pos hc] at h
    have hle := (List.dropWhile_sublist (l := t) (p := p)).length_le
    rw [h] at hle
    simp at hle
  · simpa using hc

theorem trimR_append_trimmed {a b : List Char} (hb : trimR b = b)
    (hne : b ≠ []) : trimR (a ++ b) = a ++ b := by
  have hrev : List.dropWhile isPyWs b.reverse = b.reverse := by
    have h2 := congrArg List.reverse hb
    unfold trimR at h2
    rwa [List.reverse_reverse] at h2
  unfold trimR
  rw [List.reverse_append, dropWhile_append_pos (by
    rw [hrev]
    simpa using hne)]
  rw [hrev, ← List.reverse_append, List.reverse_reverse]

theorem trimR_append_ws {x u : List Char} (hu : ∀ a ∈ u, isPyWs a = true) :
    trimR (x ++ u) = trimR x := by
  unfold trimR
  rw [List.reverse_append, dropWhile_append_all (by
    intro a ha
    exact hu a (List.mem_reverse.mp ha))]

theorem trimR_idem (l : List Char) : trimR (trimR l) = trimR l := by
  rcases hd : List.dropWhile isPyWs l.reverse with _ | ⟨c, t⟩
  · unfold trimR
    rw [hd]
    rfl
  · have hc : isPyWs c = false := dropWhile_head_not hd
    unfold trimR
    rw [hd, List.reverse_reverse, List.dropWhile_cons, if_neg (by simp [hc])]

theorem head?_append_left {x y : List Char} (h : x ≠ []) :
    (x ++ y).head? = x.head? := by
  cases x with
  | nil => exact absurd rfl h
  | cons c t => rfl

theorem take3_append_left {x y : List Char} (h : 3 ≤ x.length) :
    (x ++ y).take 3 = x.take 3 := by
  rw [List.take_append_of_le_length h]

theorem replicate_btick_split {n : Nat} (h : 3 ≤ n) :
    List.replicate n btick =
      btick :: btick :: btick :: List.replicate (n - 3) btick := by
  obtain ⟨k, rfl⟩ : ∃ k, n = 3 + k := ⟨n - 3, by omega⟩
  rw [List.replicate_add]
  rw [show 3 + k - 3 = k by omega]
  rfl

theorem ws_ne_brace {a : Char} (h : isPyWs a = true) : a ≠ '{' := by
  intro hEq
  subst hEq
  simp [isPyWs] at h

theorem trimL_eq_self {s : List Char} {c : Char}
    (h : s.head? = some c) (hc : isPyWs c = false) : trimL s = s := by
  cases s with
  | nil => simp at h
  | cons x t =>
    simp only [List.head?_cons, Option.some.injEq] at h
    subst h
    unfold trimL
    rw [List.dropWhile_cons, if_neg (by simp [hc])]

/-- If the case-insensitive `json` tag matches right after the
backticks, the matched window lies within the junk before the newline
(the newline cannot lower-case to a letter of `json`). -/
theorem json_tag_within {D X : List Char}
    (h : ((D ++ '\n' :: X).take 4).map lowerAscii = lc ("json")) :
    4 ≤ D.length := by
  by_contra hlt
  push_neg at hlt
  have hk : (D ++ '\n' :: X)[D.length]? = some '\n' := by
    rw [List.getElem?_append_right (le_refl _)]
    simp
  have h2 : ((D ++ '\n' :: X).take 4)[D.length]? = some '\n' := by
    rw [List.getElem?_take, if_pos hlt]
    exact hk
  have h3 := congrArg (fun l => l[D.length]?) h
  simp only [List.getElem?_map, h2, Option.map_some'] at h3
  have hD4 : D.length < 4 := hlt
  rcases hD : D.length with _ | _ | _ | k
  · rw [hD] at h3
    simp only [lc] at h3
    exact absurd h3 (by decide)
  · rw [hD] at h3
    simp only [lc] at h3
    exact absurd h3 (by decide)
  · rw [hD] at h3
    simp only [lc] at h3
    exact absurd h3 (by decide)
  · rw [hD] at h3
    have hk0 : k = 0 := by omega
    subst hk0
    simp only [lc] at h3
    exact absurd h3 (by decide)

/-- Shape of `subFenceOpen` on a well-formed opening fence: some
brace-free junk, then the (whitespace-trimmed-left) wrapped text. -/
theorem subFenceOpen_shape {n : Nat} {tag wsA W Z : List Char}
    (hn : 3 ≤ n) (htag : '{' ∉ tag)
    (hwsA : ∀ a ∈ wsA, isPyWs a = true)
    (hWhead : ∃ c t, W = c :: t ∧ isPyWs c = false) :
    ∃ V, subFenceOpen (List.replicate n btick ++ (tag ++ '\n' :: (wsA ++ (W ++ Z)))) =
      V ++ (W ++ Z) ∧ '{' ∉ V ∧
      (V = [] ∨ ∃ c t, V = c :: t ∧ isPyWs c = false) := by
  have hsplit := replicate_btick_split hn
  have htake : (List.replicate n btick ++ (tag ++ '\n' :: (wsA ++ (W ++ Z)))).take 3 =
      [btick, btick, btick] := by
    rw [take3_append_left (by rw [List.length_replicate]; omega)]
    rw [hsplit]
    rfl
  unfold subFenceOpen
  rw [if_pos htake]
  have hdrop3 : (List.replicate n btick ++ (tag ++ '\n' :: (wsA ++ (W ++ Z)))).drop 3 =
      (List.replicate (n - 3) btick ++ tag) ++ '\n' :: (wsA ++ (W ++ Z)) := by
    rw [hsplit]
    simp [List.append_assoc]
  rw [hdrop3]
  have hU : ∃ U, (if ((((List.replicate (n - 3) btick ++ tag) ++
        '\n' :: (wsA ++ (W ++ Z))).take 4).map lowerAscii = lc ("json")) then
        ((List.replicate (n - 3) btick ++ tag) ++ '\n' :: (wsA ++ (W ++ Z))).drop 4
      else (List.replicate (n - 3) btick ++ tag) ++ '\n' :: (wsA ++ (W ++ Z))) =
      U ++ '\n' :: (wsA ++ (W ++ Z)) ∧ '{' ∉ U := by
    by_cases hj : (((List.replicate (n - 3) btick ++ tag) ++
        '\n' :: (wsA ++ (W ++ Z))).take 4).map lowerAscii = lc ("json")
    · have h4 := json_tag_within hj
      refine ⟨(List.replicate (n - 3) btick ++ tag).drop 4, ?_, ?_⟩
      · rw [if_pos hj, List.drop_append_of_le_length h4]
      · intro hmem
        have := (List.drop_sublist 4 _).mem hmem
        rcases List.mem_append.mp this with hmem2 | hmem2
        · have := List.eq_of_mem_replicate hmem2
          exact absurd this (by decide)
        · exact htag hmem2
    · refine ⟨List.replicate (n - 3) btick ++ tag, by rw [if_neg hj], ?_⟩
      intro hmem
      rcases List.mem_append.mp hmem with hmem2 | hmem2
      · have := List.eq_of_mem_replicate hmem2
        exact absurd this (by decide)
      · exact htag hmem2
  rcases hU with ⟨U, hUeq, hUbrace⟩
  rw [hUeq]
  have hregroup : U ++ '\n' :: (wsA ++ (W ++ Z)) = (U ++ '\n' :: wsA) ++ (W ++ Z) := by
    simp [List.append_assoc]
  rw [hregroup]
  rcases hWhead with ⟨c0, t0, hW, hc0⟩
  have hbraceJ : '{' ∉ (U ++ '\n' :: wsA) := by
    intro hmem
    rcases List.mem_append.mp hmem with h2 | h2
    · exact hUbrace h2
    · rcases List.mem_cons.mp h2 with h3 | h3
      · exact absurd h3.symm (by decide)
      · exact (ws_ne_brace (hwsA _ h3)) rfl
  by_cases hJ : List.dropWhile isPyWs (U ++ '\n' :: wsA) = []
  · refine ⟨[], ?_, by simp, Or.inl rfl⟩
    rw [dropWhile_append_all (List.dropWhile_eq_nil_iff.mp hJ)]
    rw [hW, List.cons_append, List.dropWhile_cons, if_neg (by simp [hc0])]
    simp
  · refine ⟨List.dropWhile isPyWs (U ++ '\n' :: wsA), dropWhile_append_pos hJ, ?_, ?_⟩
    · intro hmem
      exact hbraceJ ((List.dropWhile_sublist _).mem hmem)
    · right
      rcases hv : List.dropWhile isPyWs (U ++ '\n' :: wsA) with _ | ⟨c, t⟩
      · exact absurd hv hJ
      · exact ⟨c, t, rfl, dropWhile_head_not hv⟩

theorem dropR_append_replicate {y : List Char} {m : Nat} (hm : 3 ≤ m) :
    dropR 3 (y ++ List.replicate m btick) = y ++ List.replicate (m - 3) btick := by
  unfold dropR
  rw [List.length_append, List.length_replicate]
  rw [show y.length + m - 3 = y.length + (m - 3) by omega]
  rw [List.take_append]
  rw [List.take_replicate]
  rw [show min (m - 3) m = m - 3 by omega]

theorem reverse_take3_btick {y : List Char} {m : Nat} (hm : 3 ≤ m) :
    (y ++ List.replicate m btick).reverse.take 3 = [btick, btick, btick] := by
  rw [List.reverse_append, List.reverse_replicate]
  rw [take3_append_left (by rw [List.length_replicate]; omega)]
  rw [replicate_btick_split hm]
  rfl

/-- Shape of `subFenceClose`: the trailing fence (with the whitespace
run before it) is removed when present; the wrapped text, which itself
neither ends in a fence marker nor is all backticks, is untouched. -/
theorem subFenceClose_shape {V W Z : List Char}
    (hWtrim : trimR W = W) (hWne : W ≠ []) (hWbrace : '{' ∈ W)
    (h3close : W.reverse.take 3 ≠ [btick, btick, btick])
    (hZ : Z = [] ∨ ∃ u m, 3 ≤ m ∧ (∀ a ∈ u, isPyWs a = true) ∧
      Z = u ++ '\n' :: List.replicate m btick) :
    ∃ Z', subFenceClose (V ++ (W ++ Z)) = V ++ (W ++ Z') ∧
      (Z' = [] ∨ ∃ Y c, Z' = Y ++ [c] ∧ isPyWs c = false) := by
  rcases hZ with rfl | ⟨u, m, hm, hu, rfl⟩
  · have hcond : ¬ ((V ++ (W ++ ([] : List Char))).reverse.take 3 =
        [btick, btick, btick]) := by
      intro hcond
      rw [List.append_nil, List.reverse_append] at hcond
      by_cases hW3 : 3 ≤ W.length
      · rw [take3_append_left (by rw [List.length_reverse]; omega)] at hcond
        exact h3close hcond
      · rw [show (3 : Nat) = W.reverse.length + (3 - W.reverse.length) by
            rw [List.length_reverse]; omega] at hcond
        rw [List.take_append] at hcond
        have hmem : '{' ∈ W.reverse ++ V.reverse.take (3 - W.reverse.length) :=
          List.mem_append.mpr (Or.inl (List.mem_reverse.mpr hWbrace))
        rw [hcond] at hmem
        rcases List.mem_cons.mp hmem with h2 | h2
        · exact absurd h2 (by decide)
        · rcases List.mem_cons.mp h2 with h3 | h3
          · exact absurd h3 (by decide)
          · rcases List.mem_cons.mp h3 with h4 | h4
            · exact absurd h4 (by decide)
            · simp at h4
    refine ⟨[], ?_, Or.inl rfl⟩
    unfold subFenceClose
    rw [if_neg hcond]
  · have hcond : (V ++ (W ++ (u ++ '\n' :: List.replicate m btick))).reverse.take 3 =
        [btick, btick, btick] := by
      rw [show V ++ (W ++ (u ++ '\n' :: List.replicate m btick)) =
        (V ++ W ++ u ++ ['\n']) ++ List.replicate m btick by simp [List.append_assoc]]
      exact reverse_take3_btick hm
    unfold subFenceClose
    rw [if_pos hcond]
    rw [show V ++ (W ++ (u ++ '\n' :: List.replicate m btick)) =
      (V ++ W ++ u ++ ['\n']) ++ List.replicate m btick by simp [List.append_assoc]]
    rw [dropR_append_replicate hm]
    by_cases hm3 : m = 3
    · subst hm3
      simp only [show (3 : Nat) - 3 = 0 by rfl, List.replicate_zero, List.append_nil]
      rw [show V ++ W ++ u ++ ['\n'] = (V ++ W) ++ (u ++ ['\n']) by simp [List.append_assoc]]
      rw [trimR_append_ws (by
        intro a ha
        rcases List.mem_append.mp ha with h2 | h2
        · exact hu a h2
        · rcases List.mem_cons.mp h2 with h3 | h3
          · subst h3; decide
          · simp at h3)]
      rw [trimR_append_trimmed hWtrim hWne]
      exact ⟨[], by simp, Or.inl rfl⟩
    · have hm4 : 1 ≤ m - 3 := by omega
      refine ⟨u ++ '\n' :: List.replicate (m - 3) btick, ?_, ?_⟩
      · rw [show V ++ W ++ u ++ ['\n'] ++ List.replicate (m - 3) btick =
          (V ++ W ++ u ++ ['\n'] ++ List.replicate (m - 4) btick) ++ [btick] by
            rw [show m - 3 = (m - 4) + 1 by omega, List.replicate_succ']
            simp [List.append_assoc]]
        rw [trimR_append_last (by decide)]
        rw [show m - 3 = (m - 4) + 1 by omega, List.replicate_succ']
        simp [List.append_assoc]
      · right
        refine ⟨u ++ '\n' :: List.replicate (m - 4) btick, btick, ?_, by decide⟩
        rw [show m - 3 = (m - 4) + 1 by omega, List.replicate_succ']
        simp [List.append_assoc]

theorem pstrip_VWZ {V W Z : List Char}
    (hV : V = [] ∨ ∃ c t, V = c :: t ∧ isPyWs c = false)
    (hW : ∃ c t, W = c :: t ∧ isPyWs c = false)
    (hWtrim : trimR W = W)
    (hZ : Z = [] ∨ ∃ Y c, Z = Y ++ [c] ∧ isPyWs c = false) :
    pstrip (V ++ (W ++ Z)) = V ++ (W ++ Z) := by
  rcases hW with ⟨c0, t0, hWc, hc0⟩
  have htl : trimL (V ++ (W ++ Z)) = V ++ (W ++ Z) := by
    rcases hV with rfl | ⟨c1, t1, hVc, hc1⟩
    · rw [List.nil_append]
      exact trimL_eq_self (by rw [hWc, head?_append_left (by simp)]; rfl) hc0
    · exact trimL_eq_self (by rw [hVc]; rfl) hc1
  have htr : trimR (V ++ (W ++ Z)) = V ++ (W ++ Z) := by
    rcases hZ with rfl | ⟨Y, c2, hZc, hc2⟩
    · rw [List.append_nil]
      exact trimR_append_trimmed hWtrim (by rw [hWc]; simp)
    · rw [show V ++ (W ++ Z) = (V ++ W ++ Y) ++ [c2] by
        rw [hZc]; simp [List.append_assoc]]
      rw [trimR_append_last hc2]
  unfold pstrip
  rw [htl, htr]

/-- Shape of the full fence strip when an opening fence is present
(with or without a closing fence). -/
theorem strip_shape_open {n : Nat} {tag wsA W wsB E : List Char}
    (hn : 3 ≤ n) (htag : '{' ∉ tag)
    (hwsA : ∀ a ∈ wsA, isPyWs a = true)
    (hwsB : ∀ a ∈ wsB, isPyWs a = true)
    (hWtrim : trimR W = W)
    (hWhead : ∃ c t, W = c :: t ∧ isPyWs c = false)
    (hWbrace : '{' ∈ W)
    (h3close : W.reverse.take 3 ≠ [btick, btick, btick])
    (hE : E = [] ∨ ∃ m, 3 ≤ m ∧ E = '\n' :: List.replicate m btick) :
    ∃ V Z, strip_code_fences
        (List.replicate n btick ++ (tag ++ '\n' :: ((wsA ++ (W ++ wsB)) ++ E))) =
      V ++ (W ++ Z) ∧ '{' ∉ V := by
  have hWne : W ≠ [] := by
    rcases hWhead with ⟨c, t, hc, _⟩
    rw [hc]
    simp
  -- Step 1: the outer strip is the identity on the fenced text, except
  -- that with no closing fence the trailing whitespace of the wrapped
  -- text goes.
  have hhead : (List.replicate n btick ++ (tag ++ '\n' :: ((wsA ++ (W ++ wsB)) ++ E))).head? =
      some btick := by
    rw [head?_append_left (by
      rw [replicate_btick_split hn]
      simp)]
    rw [replicate_btick_split hn]
    rfl
  have htl : trimL (List.replicate n btick ++ (tag ++ '\n' :: ((wsA ++ (W ++ wsB)) ++ E))) =
      List.replicate n btick ++ (tag ++ '\n' :: ((wsA ++ (W ++ wsB)) ++ E)) :=
    trimL_eq_self hhead (by decide)
  have hstrip1 : ∃ Z₀, pstrip (List.replicate n btick ++ (tag ++ '\n' ::
        ((wsA ++ (W ++ wsB)) ++ E))) =
      List.replicate n btick ++ (tag ++ '\n' :: (wsA ++ (W ++ Z₀))) ∧
      (Z₀ = [] ∨ ∃ u m, 3 ≤ m ∧ (∀ a ∈ u, isPyWs a = true) ∧
        Z₀ = u ++ '\n' :: List.replicate m btick) := by
    unfold pstrip
    rw [htl]
    rcases hE with rfl | ⟨m, hm, rfl⟩
    · refine ⟨[], ?_, Or.inl rfl⟩
      rw [show List.replicate n btick ++ (tag ++ '\n' :: ((wsA ++ (W ++ wsB)) ++ [])) =
        ((List.replicate n btick ++ tag ++ '\n' :: wsA) ++ W) ++ wsB by
          simp [List.append_assoc]]
      rw [trimR_append_ws hwsB, trimR_append_trimmed hWtrim hWne]
      simp [List.append_assoc]
    · refine ⟨wsB ++ '\n' :: List.replicate m btick, ?_,
        Or.inr ⟨wsB, m, hm, hwsB, rfl⟩⟩
      rw [show List.replicate n btick ++ (tag ++ '\n' ::
          ((wsA ++ (W ++ wsB)) ++ ('\n' :: List.replicate m btick))) =
        (List.replicate n btick ++ tag ++ '\n' :: wsA ++ W ++ wsB ++
          ['\n'] ++ List.replicate (m - 1) btick) ++ [btick] by
          rw [show m = (m - 1) + 1 by omega, List.replicate_succ']
          simp [List.append_assoc]]
      rw [trimR_append_last (by decide)]
      rw [show m = (m - 1) + 1 by omega, List.replicate_succ']
      simp [List.append_assoc]
  rcases hstrip1 with ⟨Z₀, hps, hZ₀⟩
  unfold strip_code_fences
  rw [hps]
  have htake : (List.replicate n btick ++ (tag ++ '\n' :: (wsA ++ (W ++ Z₀)))).take 3 =
      [btick, btick, btick] := by
    rw [take3_append_left (by rw [List.length_replicate]; omega)]
    rw [replicate_btick_split hn]
    rfl
  rw [if_pos htake]
  rcases subFenceOpen_shape hn htag hwsA hWhead (Z := Z₀) with ⟨V, hopen, hVbrace, hVhead⟩
  rw [hopen]
  rcases subFenceClose_shape hWtrim hWne hWbrace h3close hZ₀ (V := V) with
    ⟨Z', hclose, hZ'⟩
  rw [hclose]
  refine ⟨V, Z', ?_, hVbrace⟩
  exact pstrip_VWZ hVhead hWhead hWtrim hZ'

theorem strip_no_fence {j : List Char}
    (h : (pstrip j).take 3 ≠ [btick, btick, btick]) :
    strip_code_fences j = pstrip j := by
  unfold strip_code_fences
  rw [if_neg h]

/-- Shape of the full fence strip when only a closing fence is
present. -/
theorem strip_shape_close {m : Nat} {wsA W wsB : List Char}
    (hm : 3 ≤ m)
    (hwsA : ∀ a ∈ wsA, isPyWs a = true)
    (hWhead : ∃ c t, W = c :: t ∧ isPyWs c = false)
    (hWbrace : '{' ∈ W)
    (h3open : W.take 3 ≠ [btick, btick, btick]) :
    strip_code_fences ((wsA ++ (W ++ wsB)) ++ '\n' :: List.replicate m btick) =
      W ++ (wsB ++ '\n' :: List.replicate m btick) := by
  rcases hWhead with ⟨c0, t0, hWc, hc0⟩
  have htl : trimL ((wsA ++ (W ++ wsB)) ++ '\n' :: List.replicate m btick) =
      W ++ (wsB ++ '\n' :: List.replicate m btick) := by
    unfold trimL
    rw [show (wsA ++ (W ++ wsB)) ++ '\n' :: List.replicate m btick =
      wsA ++ (W ++ (wsB ++ '\n' :: List.replicate m btick)) by simp [List.append_assoc]]
    rw [dropWhile_append_all hwsA]
    rw [hWc, List.cons_append, List.dropWhile_cons, if_neg (by simp [hc0])]
  have hps : pstrip ((wsA ++ (W ++ wsB)) ++ '\n' :: List.replicate m btick) =
      W ++ (wsB ++ '\n' :: List.replicate m btick) := by
    unfold pstrip
    rw [htl]
    rw [show W ++ (wsB ++ '\n' :: List.replicate m btick) =
      (W ++ wsB ++ ['\n'] ++ List.replicate (m - 1) btick) ++ [btick] by
        rw [show m = (m - 1) + 1 by omega, List.replicate_succ']
        simp [List.append_assoc]]
    rw [trimR_append_last (by decide)]
  have hcond : ¬ ((W ++ (wsB ++ '\n' :: List.replicate m btick)).take 3 =
      [btick, btick, btick]) := by
    intro hcond
    by_cases hW3 : 3 ≤ W.length
    · rw [take3_append_left hW3] at hcond
      exact h3open hcond
    · rw [show (3 : Nat) = W.length + (3 - W.length) by omega] at hcond
      rw [List.take_append] at hcond
      have hmem : '{' ∈ W ++ (wsB ++ '\n' :: List.replicate m btick).take (3 - W.length) :=
        List.mem_append.mpr (Or.inl hWbrace)
      rw [hcond] at hmem
      rcases List.mem_cons.mp hmem with h2 | h2
      · exact absurd h2 (by decide)
      · rcases List.mem_cons.mp h2 with h3 | h3
        · exact absurd h3 (by decide)
        · rcases List.mem_cons.mp h3 with h4 | h4
          · exact absurd h4 (by decide)
          · simp at h4
  unfold strip_code_fences
  rw [hps, if_neg hcond]

/-- C7: wrapping a valid structured object in a fenced-code block - an
opening line of `n ≥ 3` backticks with an optional brace-free language
tag, and/or a closing line of `m ≥ 3` backticks - does not change the
result of `parse_model_json`: both the wrapped and the unwrapped text
extract to the same record, so fence-stripping is a no-op on the parse
result.  (The wrapped content is the object itself: after trimming it
does not begin or end with a fence marker of its own.) -/
theorem c7_fenced_block_no_op (bo bc : Bool) (n m : Nat)
    (tag j c : List Char) (v : Json)
    (repair : List Char → Option (List Char))
    (hn : 3 ≤ n) (hm : 3 ≤ m) (htag : '{' ∉ tag)
    (hopen : (pstrip j).take 3 ≠ [btick, btick, btick])
    (hclose : (pstrip j).reverse.take 3 ≠ [btick, btick, btick])
    (hfb : first_balanced_json_object (normalize_quotes (pstrip j)) = some c)
    (hload : jloads c = some v) :
    parse_model_json repair (fenceWrap bo bc n tag m j) = .ok v ∧
    parse_model_json repair j = .ok v := by
  obtain ⟨P0, T0, hWdecomp, hP0, hchead, hcself⟩ := fb_inv hfb
  obtain ⟨c1, rfl⟩ : ∃ c1, c = '{' :: c1 := by
    cases c with
    | nil => simp at hchead
    | cons x tl =>
      simp only [List.head?_cons, Option.some.injEq] at hchead
      exact ⟨tl, by rw [hchead]⟩
  have hWbrace : '{' ∈ pstrip j := by
    have hμ : '{' ∈ normalize_quotes (pstrip j) := by
      rw [hWdecomp]
      exact List.mem_append.mpr (Or.inl (List.mem_append.mpr (Or.inr (by simp))))
    rcases List.mem_map.mp hμ with ⟨x, hx, hq⟩
    rwa [quoteMap_eq_brace.mp hq] at hx
  have hWne : pstrip j ≠ [] := fun h => by
    rw [h] at hWbrace
    simp at hWbrace
  obtain ⟨wsB, hAeq, hwsB⟩ := trimR_decomp (trimL j)
  have hAeq' : trimL j = pstrip j ++ wsB := hAeq
  have hjdecomp : j = j.takeWhile isPyWs ++ (pstrip j ++ wsB) := by
    conv_lhs => rw [(trimL_decomp j).1]
    rw [hAeq']
  have hwsA := (trimL_decomp j).2
  have hWhead : ∃ c0 t0, pstrip j = c0 :: t0 ∧ isPyWs c0 = false := by
    rcases hW : pstrip j with _ | ⟨c0, t0⟩
    · exact absurd hW hWne
    · refine ⟨c0, t0, rfl, ?_⟩
      have hA : List.dropWhile isPyWs j = c0 :: (t0 ++ wsB) := by
        have h2 := hAeq'
        rw [hW] at h2
        exact h2
      exact dropWhile_head_not hA
  have hWtrim : trimR (pstrip j) = pstrip j := trimR_idem (trimL j)
  have hdirect : parse_model_json repair j = .ok v := by
    simp only [parse_model_json, strip_no_fence hopen, hfb, hload]
  refine ⟨?_, hdirect⟩
  have hfbshape : ∀ V Z : List Char, '{' ∉ V →
      first_balanced_json_object (normalize_quotes (V ++ (pstrip j ++ Z))) =
        some ('{' :: c1) := by
    intro V Z hV
    unfold normalize_quotes
    rw [List.map_append, List.map_append]
    have hμW : (pstrip j).map quoteMap = P0 ++ '{' :: c1 ++ T0 := hWdecomp
    rw [hμW]
    rw [show V.map quoteMap ++ ((P0 ++ '{' :: c1 ++ T0) ++ Z.map quoteMap) =
      (V.map quoteMap ++ P0) ++ ('{' :: c1 ++ (T0 ++ Z.map quoteMap)) by
        simp [List.append_assoc]]
    apply fb_of_decomp
    · intro hmem
      rcases List.mem_append.mp hmem with h2 | h2
      · exact normalize_no_brace hV h2
      · exact hP0 h2
    · rfl
    · exact hcself
  cases bo
  · cases bc
    · simpa [fenceWrap] using hdirect
    · have hwrap : fenceWrap false true n tag m j =
          (j.takeWhile isPyWs ++ (pstrip j ++ wsB)) ++ '\n' :: List.replicate m btick := by
        unfold fenceWrap
        rw [← hjdecomp]
        simp
      have hfb2 := hfbshape [] (wsB ++ '\n' :: List.replicate m btick) (by simp)
      rw [List.nil_append] at hfb2
      simp only [parse_model_json, hwrap,
        strip_shape_close hm hwsA hWhead hWbrace hopen, hfb2, hload]
  · have hE : (if bc then '\n' :: List.replicate m btick else []) = [] ∨
        ∃ m2, 3 ≤ m2 ∧ (if bc then '\n' :: List.replicate m btick else []) =
          '\n' :: List.replicate m2 btick := by
      cases bc
      · exact Or.inl rfl
      · exact Or.inr ⟨m, hm, rfl⟩
    have hwrap : fenceWrap true bc n tag m j =
        List.replicate n btick ++ (tag ++ '\n' ::
          ((j.takeWhile isPyWs ++ (pstrip j ++ wsB)) ++
            (if bc then '\n' :: List.replicate m btick else []))) := by
      unfold fenceWrap
      rw [← hjdecomp]
      simp [List.append_assoc]
    rcases strip_shape_open hn htag hwsA hwsB hWtrim hWhead hWbrace hclose hE with
      ⟨V, Z, hstrip, hVbrace⟩
    simp only [parse_model_json, hwrap, hstrip, hfbshape V Z hVbrace, hload]

/-- Witness for C7: the spec's concrete scenario - three backticks and a
`json` tag around `{"summary": "ok", "confidence": 7}` parse to the
same record as the bare object. -/
theorem c7_fenced_block_no_op_witness :
    parse_model_json noRepair (fenceWrap true true 3 (lc ("json")) 3
      (lc ("\x7b\"summary\": \"ok\", \"confidence\": 7\x7d"))) =
      .ok (Json.obj [(lc ("summary"), Json.str (lc ("ok"))),
                     (lc ("confidence"), Json.num (lc ("7")))]) ∧
    parse_model_json noRepair (lc ("\x7b\"summary\": \"ok\", \"confidence\": 7\x7d")) =
      .ok (Json.obj [(lc ("summary"), Json.str (lc ("ok"))),
                     (lc ("confidence"), Json.num (lc ("7")))]) :=
  c7_fenced_block_no_op true true 3 3 (lc ("json"))
    (lc ("\x7b\"summary\": \"ok\", \"confidence\": 7\x7d"))
    (lc ("\x7b\"summary\": \"ok\", \"confidence\": 7\x7d"))
    (Json.obj [(lc ("summary"), Json.str (lc ("ok"))),
               (lc ("confidence"), Json.num (lc ("7")))])
    noRepair (by decide) (by decide) (by decide) (by decide) (by decide)
    (by rfl) (by rfl)

end InvestSwarm
